import Mathlib

/-!
# Verification of the `sylfr` French syllabification core

Shallow embedding of `src/hpat/sylfr/__init__.py` over `List Char`
(Python strings are sequences of codepoints).

The module builds a regular expression from category token sets using the
`hpat.ezre` pattern algebra, mirrors the input word (cluster-safe reversal
implemented with `re.sub`), scans the mirrored word with the compiled
pattern (`re.finditer`), and un-mirrors the named groups of each match.

The `hpat.ezre` and `hpat.xsampa` modules are not part of the sources at
hand; where their behaviour is needed it is modelled from the spec
(descending-token-length ordering of alternatives, greedy and minimal
repetition, the end anchor produced by sequencing with `None`, and the
X-SAMPA notation of the four diphthongs).  Each such place is marked.
-/

namespace Sylfr

abbrev Tok := List Char

/-- U+0303 COMBINING TILDE: second codepoint of the nasalized vowels. -/
def tildeC : Char := Char.ofNat 0x0303

/-- U+032F COMBINING INVERTED BREVE BELOW: the non-syllabic diacritic
inside the diphthongs. -/
def breveC : Char := Char.ofNat 0x032F

/-- U+02BC MODIFIER LETTER APOSTROPHE, the glottal-stop-like consonant of
the dataset. -/
def apoC : Char := Char.ofNat 0x02BC

/-- `Syllable.LIQUIDS` from the source. -/
def LIQUIDS : List Tok := [['ʁ'], ['l']]

/-- `Syllable.GLIDES` from the source. -/
def GLIDES : List Tok := [['j'], ['w'], ['ɥ']]

/-- `Syllable.VOWELS` from the source.  The last four entries are the
diphthongs written `XSAMPA.to_ipa("u_^a")` etc.  Modelled from the spec:
`hpat.xsampa` is not in the sources; in X-SAMPA `_^` is the non-syllabic
diacritic, rendered in IPA as U+032F on the preceding symbol, so
`u_^a` is the three-codepoint symbol `u + U+032F + a`, and similarly for
`y_^i`, `i_^e`, `i_^E` (X-SAMPA `E` is IPA `ɛ`). -/
def VOWELS : List Tok :=
  [['a'], ['ɛ'], ['e'], ['i'],
   ['ə'], ['œ'], ['ø'], ['y'],
   ['ɑ'], ['ɔ'], ['o'], ['u'],
   ['ɑ', tildeC], ['ɛ', tildeC], ['œ', tildeC], ['ɔ', tildeC],
   ['u', breveC, 'a'], ['y', breveC, 'i'], ['i', breveC, 'e'], ['i', breveC, 'ɛ']]

/-- `Syllable.LIQUID_FRIENDLY` from the source. -/
def LIQUID_FRIENDLY : List Tok :=
  [['p'], ['b'], ['f'], ['v'],
   ['t'], ['d'],
   ['k'], ['g']]

/-- `Syllable.CONSONANTS` from the source. -/
def CONSONANTS : List Tok :=
  [['p'], ['b'], ['f'], ['v'], ['m'],
   ['t'], ['d'], ['s'], ['z'], ['n'],
   ['k'], ['g'], ['ʃ'], ['ʒ'], ['ɲ'],
   ['ŋ'], [apoC], ['t', 'ʃ'], ['d', 'ʒ']]

/-- Stable insertion of a token into a list ordered by descending length. -/
def insDesc (t : Tok) : List Tok → List Tok
  | [] => [t]
  | u :: us => if u.length < t.length then t :: u :: us else u :: insDesc t us

/-- Stable sort by descending token length.  Modelled from the spec:
`ezre.Ezre.from_sequence` orders its alternatives by descending token
length so that no shorter literal shadows a longer one sharing a prefix
(spec 4.2). -/
def sortDesc : List Tok → List Tok
  | [] => []
  | t :: ts => insDesc t (sortDesc ts)

/-- The alternatives of the vowel atom `V = Ezre.from_sequence(VOWELS)`,
in the order the compiled pattern tries them. -/
def vToks : List Tok := sortDesc VOWELS

/-- The alternatives of `C = (L | Y | Ezre.from_sequence(CONSONANTS))`:
ordered alternation keeps the three sub-alternations in source order,
each itself sorted by descending length. -/
def cToks : List Tok := sortDesc LIQUIDS ++ sortDesc GLIDES ++ sortDesc CONSONANTS

/-- The alternatives of `L = Ezre.from_sequence(LIQUIDS)`. -/
def lToks : List Tok := sortDesc LIQUIDS

/-- The alternatives of `Y = Ezre.from_sequence(GLIDES)`. -/
def yToks : List Tok := sortDesc GLIDES

/-- The alternatives of `Ezre.from_sequence(LIQUID_FRIENDLY)`,
the second element of the `LC` sequence. -/
def lfToks : List Tok := sortDesc LIQUID_FRIENDLY

/-- `Syllable.complex_sound`: the multi-codepoint symbols, i.e.
`filter(is_complex, LIQUIDS + GLIDES + VOWELS + CONSONANTS)`.  The source
pipes this through `set()` before joining into an alternation, so the
alternation order is unspecified; the set is prefix-free (no element is a
prefix of another), hence at most one element matches at any position and
the order is irrelevant.  We keep the filter order. -/
def complexSounds : List Tok :=
  (LIQUIDS ++ GLIDES ++ VOWELS ++ CONSONANTS).filter (fun t => t.length ≠ 1)

/-- First token of `toks` (in order) that is a prefix of `s`: the
alternative an ordered (leftmost-preference) alternation matches at the
start of `s`. -/
def firstTok (toks : List Tok) (s : List Char) : Option Tok :=
  toks.find? (fun t => t.isPrefixOf s)

/-- Ordered alternation as a single-token matcher: the matched token and
the remaining input. -/
def matchTok (toks : List Tok) (s : List Char) : Option (Tok × List Char) :=
  match firstTok toks s with
  | some t => some (t, s.drop t.length)
  | none => none

/-- All alternatives of `toks` (in order) matching at the start of `s`,
with their remainders: the choice points a backtracking engine can take
for one repetition of the alternation. -/
def allToks (toks : List Tok) (s : List Char) : List (Tok × List Char) :=
  toks.filterMap (fun t => if t.isPrefixOf s then some (t, s.drop t.length) else none)

/-!
## The mirror transform

`mirrored(word) = re.sub(Syllable.complex_sound, lambda m: m.group()[::-1], word)[::-1]`.

`re.sub` scans left to right: at each position it tries the alternation;
on a match it replaces the matched span (here: by its reversal) and
resumes after it, otherwise it keeps the character and advances one
position.  `subComplexF` is that scan, with fuel (the scan consumes at
least one character per step, so `s.length` fuel suffices).
-/

def subComplexF : Nat → List Char → List Char
  | 0, s => s
  | _ + 1, [] => []
  | n + 1, c :: rest =>
    match firstTok complexSounds (c :: rest) with
    | some t => t.reverse ++ subComplexF n ((c :: rest).drop t.length)
    | none => c :: subComplexF n rest

/-- The substitution pass of `mirrored`: every occurrence of a
multi-codepoint symbol is replaced by its codepoint reversal. -/
def subComplex (s : List Char) : List Char := subComplexF s.length s

/-- `mirrored` from the source: substitution pass, then whole-string
codepoint reversal. -/
def mirrored (s : List Char) : List Char := (subComplex s).reverse

/-!
## The syllable pattern

`Syllable.structure` compiles (modelled from the spec's pattern algebra,
4.2 and 4.4) to the regex

  coda:(C*) nucleus:(V) onset:( Y{0,1} (ng|LC|C){0,1} (S{0,1}$ | S{0,1}?) )

matched on the mirrored word, where `$` is the end anchor arising from
sequencing with `None` and `S{0,1}?` is the minimal (lazy) variant.

Backtracking semantics of the host engine: a greedy repetition first
consumes as much as possible and gives back on failure of the
continuation, trying the choice points of its last repetition first.
`codaCandsF` enumerates the candidate (consumed, rest) pairs of `C*` in
exactly that preference order.  The nucleus `V` and the onset need no
choice-point enumeration: the onset's last alternative is the empty
pattern, so the continuation of `V` (and of every onset element) never
fails, and the first alternative of each ordered choice that matches is
the one kept.
-/

def codaCandsF : Nat → List Char → List (List Char × List Char)
  | 0, s => [([], s)]
  | n + 1, s =>
    ((allToks cToks s).map
      (fun tr => (codaCandsF n tr.2).map (fun cr => (tr.1 ++ cr.1, cr.2)))).flatten
    ++ [([], s)]

/-- Candidate matches of the greedy `C*` coda, in backtracking
preference order (most repetitions first, earlier alternatives first). -/
def codaCands (s : List Char) : List (List Char × List Char) := codaCandsF s.length s

/-- The semivowel element `Y[:1]` of the onset: one glide if present. -/
def glidePart (s : List Char) : List Char × List Char :=
  match matchTok yToks s with
  | some (t, r) => (t, r)
  | none => ([], s)

/-- The onset-cluster element `(Ezre.from_str("ng") | LC | C)[:1]`:
the literal `ng`, else a liquid followed by a liquid-friendly consonant
(`LC`, on the mirrored word), else one `C`-class token, else nothing. -/
def unitPart (s : List Char) : List Char × List Char :=
  if (['n', 'g'] : List Char).isPrefixOf s then (['n', 'g'], s.drop 2)
  else
    match matchTok lToks s with
    | some (l, r) =>
      match matchTok lfToks r with
      | some (f, r') => (l ++ f, r')
      | none =>
        match matchTok cToks s with
        | some (t, r') => (t, r')
        | none => ([], s)
    | none =>
      match matchTok cToks s with
      | some (t, r') => (t, r')
      | none => ([], s)

/-- The extrasyllabic element `(S[:1] + None | S[:1:min])`: first
alternative: an optional `s` followed by the end anchor — it succeeds
exactly on `"s"` and on the empty remainder; second alternative: a lazy
optional `s` with nothing after it, which consumes nothing. -/
def sPart (s : List Char) : List Char × List Char :=
  if s = ['s'] then (['s'], []) else ([], s)

/-- A syllable: the three named groups.  Fields hold codepoint lists. -/
structure Syllable where
  onset : List Char
  nucleus : List Char
  coda : List Char
deriving DecidableEq, Repr

/-- One attempt of the compiled pattern at the start of `s` (anchored at
this position, as each step of `re.finditer` is): the groups of the match
in mirrored form and the remaining input, or `none`. -/
def matchSyllAt (s : List Char) : Option (Syllable × List Char) :=
  (codaCands s).findSome? fun cr =>
    match matchTok vToks cr.2 with
    | none => none
    | some (nuc, r2) =>
      let gr := glidePart r2
      let ur := unitPart gr.2
      let sr := sPart ur.2
      some (⟨gr.1 ++ ur.1 ++ sr.1, nuc, cr.1⟩, sr.2)

/-- `re.finditer(Syllable.pattern, m)`: leftmost non-overlapping global
search — try the pattern at the current position; on success resume after
the consumed span, on failure advance one position.  Fuel: every step
consumes at least one character. -/
def scanMatchesF : Nat → List Char → List Syllable
  | 0, _ => []
  | _ + 1, [] => []
  | n + 1, c :: rest =>
    match matchSyllAt (c :: rest) with
    | some (syl, r) => syl :: scanMatchesF n r
    | none => scanMatchesF n rest

/-- All matches of the syllable pattern over `s`, in scan order. -/
def scanMatches (s : List Char) : List Syllable := scanMatchesF s.length s

/-- `syllabify` from the source: mirror the word, collect the matches,
un-mirror each named group, and reverse the collected sequence. -/
def syllabify (word : List Char) : List Syllable :=
  ((scanMatches (mirrored word)).map fun g =>
    { onset := mirrored g.onset, nucleus := mirrored g.nucleus, coda := mirrored g.coda }).reverse

/-- `Syllable.__str__`: onset, nucleus and coda concatenated with nothing
interposed. -/
def sylStr (s : Syllable) : List Char := s.onset ++ s.nucleus ++ s.coda

/-- Concatenation of all syllables of a syllabification, in order, with
nothing interposed (the round-trip reading of the spec). -/
def catSyls (l : List Syllable) : List Char := (l.map sylStr).flatten

/-!
## Generic facts about ordered-alternation matching
-/

theorem isPref_iff {l s : List Char} : l.isPrefixOf s = true ↔ l <+: s := by
  exact List.isPrefixOf_iff_prefix

theorem pref_ext {t s : List α} (r : List α) (h : t <+: s ++ r) : t <+: s ∨ s <+: t := by
  induction t generalizing s with
  | nil => exact Or.inl List.nil_prefix
  | cons b t ih =>
    cases s with
    | nil => exact Or.inr List.nil_prefix
    | cons a s =>
      rw [List.cons_append, List.cons_prefix_cons] at h
      rcases ih h.2 with h2 | h2
      · exact Or.inl (List.cons_prefix_cons.mpr ⟨h.1, h2⟩)
      · exact Or.inr (List.cons_prefix_cons.mpr ⟨h.1.symm, h2⟩)

theorem pref_of_pref_append {t s : List α} (r : List α) (h : t <+: s) : t <+: s ++ r :=
  h.trans ⟨r, rfl⟩

theorem firstTok_nil_toks (s : List Char) : firstTok [] s = none := rfl

theorem firstTok_cons (t : Tok) (ts : List Tok) (s : List Char) :
    firstTok (t :: ts) s = if t <+: s then some t else firstTok ts s := by
  simp only [firstTok, List.find?_cons]
  by_cases h : t <+: s
  · rw [if_pos h]
    have : t.isPrefixOf s = true := isPref_iff.mpr h
    simp [this]
  · rw [if_neg h]
    have : t.isPrefixOf s = false := by
      cases hb : t.isPrefixOf s
      · rfl
      · exact absurd (isPref_iff.mp hb) h
    simp [this]

theorem firstTok_some {toks : List Tok} {s : List Char} {t : Tok}
    (h : firstTok toks s = some t) : t ∈ toks ∧ t <+: s := by
  refine ⟨List.mem_of_find?_eq_some h, ?_⟩
  have := List.find?_some h
  exact isPref_iff.mp this

theorem firstTok_isSome {toks : List Tok} {s : List Char} {t : Tok}
    (ht : t ∈ toks) (hp : t <+: s) : (firstTok toks s).isSome := by
  induction toks with
  | nil => cases ht
  | cons u us ih =>
    rw [firstTok_cons]
    by_cases hu : u <+: s
    · simp [hu]
    · rcases List.mem_cons.mp ht with rfl | hm
      · exact absurd hp hu
      · simpa [hu] using ih hm

theorem firstTok_eq_none {toks : List Tok} {s : List Char}
    (h : ∀ u ∈ toks, ¬ u <+: s) : firstTok toks s = none := by
  induction toks with
  | nil => rfl
  | cons u us ih =>
    rw [firstTok_cons, if_neg (h u (by simp))]
    exact ih (fun v hv => h v (by simp [hv]))

/-- If no token of `toks` extends strictly past `s`, appending `r` to the
input does not change which alternative matches. -/
theorem firstTok_stop {toks : List Tok} {s : List Char} (r : List Char)
    (h : ∀ u ∈ toks, ¬ s <+: u) : firstTok toks (s ++ r) = firstTok toks s := by
  induction toks with
  | nil => rfl
  | cons u us ih =>
    rw [firstTok_cons, firstTok_cons]
    by_cases hu : u <+: s
    · rw [if_pos (pref_of_pref_append r hu), if_pos hu]
    · have : ¬ u <+: s ++ r := by
        intro hc
        rcases pref_ext r hc with h1 | h1
        · exact hu h1
        · exact h u (by simp) h1
      rw [if_neg this, if_neg hu]
      exact ih (fun v hv => h v (by simp [hv]))

theorem matchTok_some {toks : List Tok} {s : List Char} {t : Tok} {r : List Char}
    (h : matchTok toks s = some (t, r)) : t ∈ toks ∧ s = t ++ r := by
  unfold matchTok at h
  cases hf : firstTok toks s with
  | none => rw [hf] at h; cases h
  | some u =>
    rw [hf] at h
    cases h
    rcases firstTok_some hf with ⟨hm, hp⟩
    rcases hp with ⟨v, hv⟩
    subst hv
    exact ⟨hm, by rw [List.drop_left]⟩

theorem matchTok_none {toks : List Tok} {s : List Char}
    (h : ∀ u ∈ toks, ¬ u <+: s) : matchTok toks s = none := by
  unfold matchTok
  rw [firstTok_eq_none h]

theorem matchTok_of_firstTok {toks : List Tok} {s : List Char} {t : Tok}
    (h : firstTok toks s = some t) : matchTok toks s = some (t, s.drop t.length) := by
  unfold matchTok
  rw [h]

theorem matchTok_append {toks : List Tok} {t : Tok} {r : List Char}
    (h : firstTok toks (t ++ r) = some t) : matchTok toks (t ++ r) = some (t, r) := by
  rw [matchTok_of_firstTok h, List.drop_left]

theorem allToks_mem {toks : List Tok} {s : List Char} {t : Tok} {r : List Char}
    (h : (t, r) ∈ allToks toks s) : t ∈ toks ∧ s = t ++ r := by
  unfold allToks at h
  rcases List.mem_filterMap.mp h with ⟨u, hu, he⟩
  by_cases hp : u.isPrefixOf s
  · rw [if_pos hp] at he
    cases he
    rcases isPref_iff.mp hp with ⟨v, hv⟩
    subst hv
    exact ⟨hu, by rw [List.drop_left]⟩
  · rw [if_neg hp] at he; cases he

/-!
## Token-set facts (established by computation)
-/

theorem vToks_sub : ∀ t ∈ vToks, t ∈ VOWELS := by decide
theorem cToks_ne_nil : ∀ t ∈ cToks, t ≠ [] := by decide
theorem vToks_ne_nil : ∀ t ∈ vToks, t ≠ [] := by decide
theorem complexSounds_ne_nil : ∀ t ∈ complexSounds, t ≠ [] := by decide

/-!
## Fuel irrelevance and unfolding equations
-/

theorem subComplexF_nil : ∀ n, subComplexF n [] = []
  | 0 => rfl
  | _ + 1 => rfl

theorem subComplexF_irrel : ∀ n m (s : List Char),
    s.length ≤ n → s.length ≤ m → subComplexF n s = subComplexF m s := by
  intro n
  induction n with
  | zero =>
    intro m s hn _
    have : s = [] := List.length_eq_zero.mp (Nat.le_zero.mp hn)
    subst this
    rw [subComplexF_nil, subComplexF_nil]
  | succ n ih =>
    intro m s hn hm
    cases s with
    | nil => rw [subComplexF_nil, subComplexF_nil]
    | cons c rest =>
      cases m with
      | zero => simp at hm
      | succ m =>
        cases hf : firstTok complexSounds (c :: rest) with
        | none =>
          have h1 : rest.length ≤ n := by
            simp only [List.length_cons] at hn; omega
          have h2 : rest.length ≤ m := by
            simp only [List.length_cons] at hm; omega
          simp only [subComplexF, hf]
          rw [ih m rest h1 h2]
        | some t =>
          have ht1 : 1 ≤ t.length := by
            have htne : t ≠ [] := complexSounds_ne_nil t (firstTok_some hf).1
            cases t with
            | nil => exact absurd rfl htne
            | cons x xs => simp
          have hd : ((c :: rest).drop t.length).length = rest.length + 1 - t.length := by
            rw [List.length_drop]; simp
          have h1 : ((c :: rest).drop t.length).length ≤ n := by
            rw [hd]; simp only [List.length_cons] at hn; omega
          have h2 : ((c :: rest).drop t.length).length ≤ m := by
            rw [hd]; simp only [List.length_cons] at hm; omega
          simp only [subComplexF, hf]
          rw [ih m _ h1 h2]

theorem subComplex_nil : subComplex [] = [] := rfl

theorem subComplex_cons (c : Char) (rest : List Char) :
    subComplex (c :: rest) =
      match firstTok complexSounds (c :: rest) with
      | some t => t.reverse ++ subComplex ((c :: rest).drop t.length)
      | none => c :: subComplex rest := by
  show subComplexF (c :: rest).length (c :: rest) = _
  cases hf : firstTok complexSounds (c :: rest) with
  | none =>
    simp only [List.length_cons, subComplexF, hf]
    rfl
  | some t =>
    have ht1 : 1 ≤ t.length := by
      have htne : t ≠ [] := complexSounds_ne_nil t (firstTok_some hf).1
      cases t with
      | nil => exact absurd rfl htne
      | cons x xs => simp
    have hd : ((c :: rest).drop t.length).length = rest.length + 1 - t.length := by
      rw [List.length_drop]; simp
    have h1 : ((c :: rest).drop t.length).length ≤ rest.length := by
      rw [hd]; omega
    simp only [List.length_cons, subComplexF, hf]
    rw [subComplexF_irrel rest.length _ _ h1 (le_refl _)]
    rfl

/-- The codepoints the `C`-class alternation can consume. -/
def cChars : List Char :=
  ['ʁ', 'l', 'j', 'w', 'ɥ', 'p', 'b', 'f', 'v', 'm', 't', 'd', 's', 'z', 'n',
   'k', 'g', 'ʃ', 'ʒ', 'ɲ', 'ŋ', apoC]

theorem cToks_chars : ∀ t ∈ cToks, ∀ c ∈ t, c ∈ cChars := by decide

theorem cChars_single : ∀ c ∈ cChars, [c] ∈ cToks := by decide

theorem allToks_rest_lt {s : List Char} {t : Tok} {r : List Char}
    (h : (t, r) ∈ allToks cToks s) : r.length < s.length := by
  rcases allToks_mem h with ⟨hm, he⟩
  have : t ≠ [] := cToks_ne_nil t hm
  subst he
  cases t with
  | nil => exact absurd rfl this
  | cons x xs => simp [List.length_append]; omega

theorem codaCandsF_nil : ∀ n, codaCandsF n [] = [([], [])]
  | 0 => rfl
  | _ + 1 => rfl

theorem codaCandsF_irrel : ∀ n m (s : List Char),
    s.length ≤ n → s.length ≤ m → codaCandsF n s = codaCandsF m s := by
  intro n
  induction n with
  | zero =>
    intro m s hn _
    have : s = [] := List.length_eq_zero.mp (Nat.le_zero.mp hn)
    subst this
    rw [codaCandsF_nil, codaCandsF_nil]
  | succ n ih =>
    intro m s hn hm
    cases s with
    | nil => rw [codaCandsF_nil, codaCandsF_nil]
    | cons c rest =>
      cases m with
      | zero => simp at hm
      | succ m =>
        simp only [codaCandsF]
        congr 1
        congr 1
        apply List.map_congr_left
        intro tr htr
        have hlt : tr.2.length < (c :: rest).length := by
          have := allToks_rest_lt (s := c :: rest) (t := tr.1) (r := tr.2) (by simpa using htr)
          exact this
        rw [ih m tr.2 (by omega) (by omega)]

theorem codaCands_eq (s : List Char) :
    codaCands s =
      ((allToks cToks s).map
        (fun tr => (codaCands tr.2).map (fun cr => (tr.1 ++ cr.1, cr.2)))).flatten
      ++ [([], s)] := by
  cases s with
  | nil =>
    show codaCandsF 0 [] = _
    rw [codaCandsF_nil]
    have : allToks cToks [] = [] := by decide
    rw [this]
    rfl
  | cons c rest =>
    show codaCandsF (c :: rest).length (c :: rest) = _
    simp only [List.length_cons, codaCandsF]
    congr 1
    congr 1
    apply List.map_congr_left
    intro tr htr
    have hlt : tr.2.length < (c :: rest).length :=
      allToks_rest_lt (s := c :: rest) (t := tr.1) (r := tr.2) (by simpa using htr)
    simp only [List.length_cons] at hlt
    rw [codaCandsF_irrel rest.length tr.2.length tr.2 (by omega) (le_refl _)]
    rfl


theorem codaCands_mem_aux :
    ∀ n (s cd r : List Char), s.length = n → (cd, r) ∈ codaCands s →
      s = cd ++ r ∧ (∀ ch ∈ cd, ch ∈ cChars) := by
  intro n
  induction n using Nat.strong_induction_on with
  | _ n ih =>
    intro s cd r hn h
    rw [codaCands_eq] at h
    rcases List.mem_append.mp h with h | h
    · rcases List.mem_flatten.mp h with ⟨l, hl, hmem⟩
      rcases List.mem_map.mp hl with ⟨tr, htr, rfl⟩
      rcases List.mem_map.mp hmem with ⟨cr, hcr, he⟩
      have h1 := allToks_mem (s := s) (by exact htr)
      have hlt : tr.2.length < s.length := allToks_rest_lt htr
      have h2 := ih tr.2.length (by omega) tr.2 cr.1 cr.2 rfl
        (by simpa using hcr)
      cases he
      constructor
      · rw [h1.2, h2.1, List.append_assoc]
      · intro ch hch
        rcases List.mem_append.mp hch with hch | hch
        · exact cToks_chars tr.1 h1.1 ch hch
        · exact h2.2 ch hch
    · simp at h
      rcases h with ⟨h1, h2⟩
      subst h1; subst h2
      exact ⟨rfl, by simp⟩

theorem codaCands_mem {s cd r : List Char} (h : (cd, r) ∈ codaCands s) :
    s = cd ++ r ∧ (∀ ch ∈ cd, ch ∈ cChars) :=
  codaCands_mem_aux s.length s cd r rfl h

/-!
## Decomposition of the matcher parts
-/

theorem glidePart_pair {s g r : List Char} (h : glidePart s = (g, r)) :
    s = g ++ r ∧ (∀ c ∈ g, c ∈ cChars) := by
  unfold glidePart at h
  cases hm : matchTok yToks s with
  | none =>
    simp only [hm, Prod.mk.injEq] at h
    rcases h with ⟨h1, h2⟩
    subst h1; subst h2
    exact ⟨rfl, by simp⟩
  | some tr =>
    obtain ⟨t, r'⟩ := tr
    simp only [hm, Prod.mk.injEq] at h
    rcases h with ⟨h1, h2⟩
    subst h1; subst h2
    refine ⟨(matchTok_some hm).2, ?_⟩
    have ht : t ∈ yToks := (matchTok_some hm).1
    have hy : ∀ t ∈ yToks, ∀ c ∈ t, c ∈ cChars := by decide
    exact hy t ht

theorem unitPart_pair {s u r : List Char} (h : unitPart s = (u, r)) :
    s = u ++ r ∧ (∀ c ∈ u, c ∈ cChars) := by
  unfold unitPart at h
  by_cases hng : (['n', 'g'] : List Char).isPrefixOf s
  · rw [if_pos hng] at h
    rcases Prod.mk.injEq .. ▸ h with ⟨h1, h2⟩
    subst h1; subst h2
    rcases isPref_iff.mp hng with ⟨tail, htail⟩
    constructor
    · rw [← htail]; rfl
    · exact (by decide : ∀ c ∈ (['n', 'g'] : List Char), c ∈ cChars)
  · rw [if_neg hng] at h
    cases hl : matchTok lToks s with
    | some lr =>
      obtain ⟨l, r'⟩ := lr
      simp only [hl, Prod.mk.injEq] at h
      cases hf : matchTok lfToks r' with
      | some fr =>
        obtain ⟨f, r''⟩ := fr
        simp only [hf, Prod.mk.injEq] at h
        rcases h with ⟨h1, h2⟩
        subst h1; subst h2
        have h1 := (matchTok_some hl).2
        have h2 := (matchTok_some hf).2
        constructor
        · rw [h1, h2, List.append_assoc]
        · intro c hc
          have hlc : ∀ t ∈ lToks, ∀ c ∈ t, c ∈ cChars := by decide
          have hfc : ∀ t ∈ lfToks, ∀ c ∈ t, c ∈ cChars := by decide
          rcases List.mem_append.mp hc with hc | hc
          · exact hlc l (matchTok_some hl).1 c hc
          · exact hfc f (matchTok_some hf).1 c hc
      | none =>
        simp only [hf, Prod.mk.injEq] at h
        cases hc : matchTok cToks s with
        | some tr =>
          obtain ⟨t, r''⟩ := tr
          simp only [hc, Prod.mk.injEq] at h
          rcases h with ⟨h1, h2⟩
          subst h1; subst h2
          exact ⟨(matchTok_some hc).2, cToks_chars t (matchTok_some hc).1⟩
        | none =>
          simp only [hc, Prod.mk.injEq] at h
          rcases h with ⟨h1, h2⟩
          subst h1; subst h2
          exact ⟨rfl, by simp⟩
    | none =>
      simp only [hl, Prod.mk.injEq] at h
      cases hc : matchTok cToks s with
      | some tr =>
        obtain ⟨t, r''⟩ := tr
        simp only [hc, Prod.mk.injEq] at h
        rcases h with ⟨h1, h2⟩
        subst h1; subst h2
        exact ⟨(matchTok_some hc).2, cToks_chars t (matchTok_some hc).1⟩
      | none =>
        simp only [hc, Prod.mk.injEq] at h
        rcases h with ⟨h1, h2⟩
        subst h1; subst h2
        exact ⟨rfl, by simp⟩

theorem sPart_pair {s sp r : List Char} (h : sPart s = (sp, r)) :
    s = sp ++ r ∧ (∀ c ∈ sp, c ∈ cChars) := by
  unfold sPart at h
  by_cases hs : s = ['s']
  · rw [if_pos hs] at h
    cases h
    exact ⟨hs, by decide⟩
  · rw [if_neg hs] at h
    cases h
    exact ⟨rfl, by simp⟩

/-!
## Inversion of one pattern attempt
-/

theorem matchSyllAt_some {s : List Char} {syl : Syllable} {r : List Char}
    (h : matchSyllAt s = some (syl, r)) :
    ∃ r1 r2 g r3 u r4 sp,
      (syl.coda, r1) ∈ codaCands s ∧
      matchTok vToks r1 = some (syl.nucleus, r2) ∧
      glidePart r2 = (g, r3) ∧ unitPart r3 = (u, r4) ∧ sPart r4 = (sp, r) ∧
      syl.onset = g ++ u ++ sp := by
  unfold matchSyllAt at h
  rcases List.exists_of_findSome?_eq_some h with ⟨cr, hmem, hcr⟩
  cases hv : matchTok vToks cr.2 with
  | none => rw [hv] at hcr; cases hcr
  | some nr =>
    obtain ⟨nuc, r2⟩ := nr
    rw [hv] at hcr
    simp only [Option.some.injEq, Prod.mk.injEq] at hcr
    obtain ⟨hsyl, hr⟩ := hcr
    subst hsyl
    refine ⟨cr.2, r2, (glidePart r2).1, (glidePart r2).2,
      (unitPart (glidePart r2).2).1, (unitPart (glidePart r2).2).2,
      (sPart (unitPart (glidePart r2).2).2).1, ?_, ?_, rfl, rfl, ?_, rfl⟩
    · simpa using hmem
    · exact hv
    · rw [← hr]

theorem matchSyllAt_decomp {s : List Char} {syl : Syllable} {r : List Char}
    (h : matchSyllAt s = some (syl, r)) :
    s = syl.coda ++ (syl.nucleus ++ (syl.onset ++ r)) ∧ syl.nucleus ∈ vToks := by
  rcases matchSyllAt_some h with ⟨r1, r2, g, r3, u, r4, sp, hcand, hv, hg, hu, hsp, hons⟩
  have h1 : s = syl.coda ++ r1 := (codaCands_mem hcand).1
  have h2 : r1 = syl.nucleus ++ r2 := (matchTok_some hv).2
  have h3 : r2 = g ++ r3 := (glidePart_pair hg).1
  have h4 : r3 = u ++ r4 := (unitPart_pair hu).1
  have h5 : r4 = sp ++ r := (sPart_pair hsp).1
  refine ⟨?_, (matchTok_some hv).1⟩
  rw [h1, h2, h3, h4, h5, hons]
  simp [List.append_assoc]

theorem matchSyllAt_lt {s : List Char} {syl : Syllable} {r : List Char}
    (h : matchSyllAt s = some (syl, r)) : r.length < s.length := by
  rcases matchSyllAt_decomp h with ⟨hd, hv⟩
  have hne : syl.nucleus ≠ [] := vToks_ne_nil _ hv
  rw [hd]
  cases hn : syl.nucleus with
  | nil => exact absurd hn hne
  | cons x xs => simp [List.length_append]; omega

theorem scanMatchesF_nil : ∀ n, scanMatchesF n [] = []
  | 0 => rfl
  | _ + 1 => rfl

theorem scanMatchesF_irrel : ∀ n m (s : List Char),
    s.length ≤ n → s.length ≤ m → scanMatchesF n s = scanMatchesF m s := by
  intro n
  induction n with
  | zero =>
    intro m s hn _
    have : s = [] := List.length_eq_zero.mp (Nat.le_zero.mp hn)
    subst this
    rw [scanMatchesF_nil, scanMatchesF_nil]
  | succ n ih =>
    intro m s hn hm
    cases s with
    | nil => rw [scanMatchesF_nil, scanMatchesF_nil]
    | cons c rest =>
      cases m with
      | zero => simp at hm
      | succ m =>
        cases hms : matchSyllAt (c :: rest) with
        | none =>
          simp only [scanMatchesF, hms]
          exact ih m rest (by simp only [List.length_cons] at hn; omega)
            (by simp only [List.length_cons] at hm; omega)
        | some sr =>
          obtain ⟨syl, r⟩ := sr
          have hlt : r.length < (c :: rest).length := matchSyllAt_lt hms
          simp only [List.length_cons] at hlt
          simp only [scanMatchesF, hms]
          rw [ih m r (by simp only [List.length_cons] at hn; omega)
            (by simp only [List.length_cons] at hm; omega)]

theorem scanMatches_nil : scanMatches [] = [] := rfl

theorem scanMatches_cons (c : Char) (rest : List Char) :
    scanMatches (c :: rest) =
      match matchSyllAt (c :: rest) with
      | some (syl, r) => syl :: scanMatches r
      | none => scanMatches rest := by
  show scanMatchesF (c :: rest).length (c :: rest) = _
  cases hms : matchSyllAt (c :: rest) with
  | none =>
    simp only [List.length_cons, scanMatchesF, hms]
    rfl
  | some sr =>
    obtain ⟨syl, r⟩ := sr
    have hlt : r.length < (c :: rest).length := matchSyllAt_lt hms
    simp only [List.length_cons] at hlt
    simp only [List.length_cons, scanMatchesF, hms]
    rw [scanMatchesF_irrel rest.length r.length r (by omega) (le_refl _)]
    rfl

/-!
## The mirror permutes codepoints
-/

theorem subComplexF_perm : ∀ n (s : List Char), List.Perm (subComplexF n s) s := by
  intro n
  induction n with
  | zero => intro s; exact List.Perm.refl s
  | succ n ih =>
    intro s
    cases s with
    | nil => exact List.Perm.refl []
    | cons c rest =>
      cases hf : firstTok complexSounds (c :: rest) with
      | none =>
        simp only [subComplexF, hf]
        exact List.Perm.cons c (ih rest)
      | some t =>
        simp only [subComplexF, hf]
        rcases (firstTok_some hf).2 with ⟨tail, htail⟩
        have hdrop : (c :: rest).drop t.length = tail := by
          rw [← htail, List.drop_left]
        rw [hdrop, ← htail]
        exact List.Perm.append (List.reverse_perm t) (ih tail)

theorem subComplex_perm (s : List Char) : List.Perm (subComplex s) s :=
  subComplexF_perm s.length s

theorem mirrored_perm (s : List Char) : List.Perm (mirrored s) s :=
  (List.reverse_perm (subComplex s)).trans (subComplex_perm s)

theorem mirrored_mem_iff {s : List Char} {c : Char} : c ∈ mirrored s ↔ c ∈ s :=
  (mirrored_perm s).mem_iff

/-- C9: `mirrored` is a codepoint permutation: same length, same multiset
of codepoints, for every input string whatsoever. -/
theorem C9_mirror_permutation (s : List Char) :
    (mirrored s).length = s.length ∧ List.Perm (mirrored s) s :=
  ⟨(mirrored_perm s).length_eq, mirrored_perm s⟩

/-!
## Group content of every match
-/

/-- The codepoints a vowel alternative can contain. -/
def vChars : List Char :=
  ['a', 'ɛ', 'e', 'i', 'ə', 'œ', 'ø', 'y', 'ɑ', 'ɔ', 'o', 'u', tildeC, breveC]

theorem vToks_chars : ∀ t ∈ vToks, ∀ c ∈ t, c ∈ vChars := by decide

theorem scanMatches_groups_aux :
    ∀ n (s : List Char), s.length = n → ∀ syl ∈ scanMatches s,
      syl.nucleus ∈ vToks ∧ (∀ c ∈ syl.onset, c ∈ cChars) ∧
      (∀ c ∈ syl.coda, c ∈ cChars) := by
  intro n
  induction n using Nat.strong_induction_on with
  | _ n ih =>
    intro s hn syl hmem
    cases s with
    | nil => rw [scanMatches_nil] at hmem; cases hmem
    | cons c rest =>
      rw [scanMatches_cons] at hmem
      cases hms : matchSyllAt (c :: rest) with
      | none =>
        rw [hms] at hmem
        have hlt : rest.length < n := by
          subst hn; simp
        exact ih rest.length hlt rest rfl syl hmem
      | some sr =>
        obtain ⟨syl0, r⟩ := sr
        rw [hms] at hmem
        rcases List.mem_cons.mp hmem with rfl | hmem
        · rcases matchSyllAt_some hms with
            ⟨r1, r2, g, r3, u, r4, sp, hcand, hv, hg, hu, hsp, hons⟩
          refine ⟨(matchTok_some hv).1, ?_, (codaCands_mem hcand).2⟩
          rw [hons]
          intro ch hch
          rcases List.mem_append.mp hch with hch | hch
          · rcases List.mem_append.mp hch with hch | hch
            · exact (glidePart_pair hg).2 ch hch
            · exact (unitPart_pair hu).2 ch hch
          · exact (sPart_pair hsp).2 ch hch
        · have hlt : r.length < n := by
            subst hn; exact matchSyllAt_lt hms
          exact ih r.length hlt r rfl syl hmem

/-- Properties of the groups of every syllable `syllabify` returns:
the nucleus is one of the vowel alternatives (fixed by `mirrored`), and
the onset and coda consist of `C`-class codepoints. -/
theorem syllabify_groups {w : List Char} {syl : Syllable} (h : syl ∈ syllabify w) :
    syl.nucleus ∈ vToks ∧ (∀ c ∈ syl.onset, c ∈ cChars) ∧
      (∀ c ∈ syl.coda, c ∈ cChars) := by
  unfold syllabify at h
  rcases List.mem_map.mp (List.mem_reverse.mp h) with ⟨g, hg, he⟩
  have hprops := scanMatches_groups_aux (mirrored w).length (mirrored w) rfl g hg
  have hvfix : ∀ v ∈ vToks, mirrored v = v := by decide
  subst he
  refine ⟨?_, ?_, ?_⟩
  · show mirrored g.nucleus ∈ vToks
    rw [hvfix g.nucleus hprops.1]
    exact hprops.1
  · intro c hc
    exact hprops.2.1 c (mirrored_mem_iff.mp hc)
  · intro c hc
    exact hprops.2.2 c (mirrored_mem_iff.mp hc)

/-- C4: for every input word, the nucleus of every produced syllable is
exactly one Vowel-category symbol of the inventory. -/
theorem C4_nucleus_singularity (w : List Char) (syl : Syllable)
    (h : syl ∈ syllabify w) : syl.nucleus ∈ VOWELS := by
  exact vToks_sub syl.nucleus (syllabify_groups h).1

/-- Witness for C4 at the concrete word `"ka"`. -/
theorem C4_nucleus_singularity_witness :
    (⟨['k'], ['a'], []⟩ : Syllable) ∈ syllabify ['k', 'a'] ∧
      (⟨['k'], ['a'], []⟩ : Syllable).nucleus ∈ VOWELS :=
  ⟨by decide, C4_nucleus_singularity ['k', 'a'] ⟨['k'], ['a'], []⟩ (by decide)⟩

/-- C7: the delimiter `/` and the space never appear in any group of any
syllable `syllabify` returns, whatever the input. -/
theorem C7_delimiter_exclusion (w : List Char) (syl : Syllable)
    (h : syl ∈ syllabify w) :
    ('/' ∉ syl.onset ∧ '/' ∉ syl.nucleus ∧ '/' ∉ syl.coda) ∧
    (' ' ∉ syl.onset ∧ ' ' ∉ syl.nucleus ∧ ' ' ∉ syl.coda) := by
  rcases syllabify_groups h with ⟨hnuc, hons, hcod⟩
  have hnc : ∀ c ∈ syl.nucleus, c ∈ vChars := vToks_chars syl.nucleus hnuc
  have hs : ('/' : Char) ∉ cChars ∧ ('/' : Char) ∉ vChars ∧
      (' ' : Char) ∉ cChars ∧ (' ' : Char) ∉ vChars := by decide
  refine ⟨⟨fun hc => hs.1 (hons _ hc), fun hc => hs.2.1 (hnc _ hc),
    fun hc => hs.1 (hcod _ hc)⟩,
    ⟨fun hc => hs.2.2.1 (hons _ hc), fun hc => hs.2.2.2 (hnc _ hc),
    fun hc => hs.2.2.1 (hcod _ hc)⟩⟩

/-- Witness for C7 at the concrete word `"ka"`. -/
theorem C7_delimiter_exclusion_witness :
    (⟨['k'], ['a'], []⟩ : Syllable) ∈ syllabify ['k', 'a'] ∧
      ('/' ∉ (['k'] : List Char) ∧ '/' ∉ (['a'] : List Char) ∧ '/' ∉ ([] : List Char)) :=
  ⟨by decide, (C7_delimiter_exclusion ['k', 'a'] ⟨['k'], ['a'], []⟩ (by decide)).1⟩

/-!
## Totality and boundedness of the scan
-/

theorem scanMatches_len_aux :
    ∀ n (s : List Char), s.length = n → (scanMatches s).length ≤ s.length := by
  intro n
  induction n using Nat.strong_induction_on with
  | _ n ih =>
    intro s hn
    cases s with
    | nil => rw [scanMatches_nil]; simp
    | cons c rest =>
      rw [scanMatches_cons]
      cases hms : matchSyllAt (c :: rest) with
      | none =>
        have := ih rest.length (by subst hn; simp) rest rfl
        simp only [List.length_cons]
        omega
      | some sr =>
        obtain ⟨syl, r⟩ := sr
        have hlt : r.length < (c :: rest).length := matchSyllAt_lt hms
        have := ih r.length (by subst hn; exact hlt) r rfl
        simp only [List.length_cons] at hlt ⊢
        omega

/-- C10: `syllabify` is a total function of the input string: on every
input whatsoever it returns a value, whose number of syllables is bounded
by the codepoint length of the input (each match consumes at least one
codepoint). -/
theorem C10_syllabify_total (w : List Char) :
    (syllabify w).length ≤ w.length := by
  unfold syllabify
  rw [List.length_reverse, List.length_map]
  calc (scanMatches (mirrored w)).length
      ≤ (mirrored w).length := scanMatches_len_aux _ _ rfl
    _ = w.length := (mirrored_perm w).length_eq

/-!
## Concrete scenarios
-/

/-- C2: the five concrete scenarios of the spec, exactly as listed:
`"aʁbʁ"`, `"kadavʁ"`, `"kalkyləʁjɔ̃"`, `"distʁibɥe"`, `"ʼaʃvjɑ̃d"`. -/
theorem C2_concrete_scenarios :
    syllabify ['a', 'ʁ', 'b', 'ʁ'] = [⟨[], ['a'], ['ʁ', 'b', 'ʁ']⟩] ∧
    syllabify ['k', 'a', 'd', 'a', 'v', 'ʁ'] =
      [⟨['k'], ['a'], []⟩, ⟨['d'], ['a'], ['v', 'ʁ']⟩] ∧
    syllabify ['k', 'a', 'l', 'k', 'y', 'l', 'ə', 'ʁ', 'j', 'ɔ', tildeC] =
      [⟨['k'], ['a'], ['l']⟩, ⟨['k'], ['y'], []⟩, ⟨['l'], ['ə'], []⟩,
       ⟨['ʁ', 'j'], ['ɔ', tildeC], []⟩] ∧
    syllabify ['d', 'i', 's', 't', 'ʁ', 'i', 'b', 'ɥ', 'e'] =
      [⟨['d'], ['i'], ['s']⟩, ⟨['t', 'ʁ'], ['i'], []⟩, ⟨['b', 'ɥ'], ['e'], []⟩] ∧
    syllabify [apoC, 'a', 'ʃ', 'v', 'j', 'ɑ', tildeC, 'd'] =
      [⟨[apoC], ['a'], ['ʃ']⟩, ⟨['v', 'j'], ['ɑ', tildeC], ['d']⟩] := by
  refine ⟨by decide, by decide, by decide, by decide, by decide⟩

/-!
## Inputs without a vowel
-/

/-- The codepoints a vowel alternative can start with. -/
def vFirsts : List Char :=
  ['a', 'ɛ', 'e', 'i', 'ə', 'œ', 'ø', 'y', 'ɑ', 'ɔ', 'o', 'u']

theorem vToks_head : ∀ v ∈ vToks, v ≠ [] ∧ v.headI ∈ vFirsts := by decide

theorem headI_of_pref {v : List Char} {c : Char} {r : List Char}
    (hne : v ≠ []) (h : v <+: c :: r) : v.headI = c := by
  cases v with
  | nil => exact absurd rfl hne
  | cons x xs =>
    rcases List.cons_prefix_cons.mp h with ⟨h1, _⟩
    simpa using h1

theorem matchTok_vToks_none_of {s : List Char}
    (h : ∀ c ∈ s, c ∉ vFirsts) : matchTok vToks s = none := by
  apply matchTok_none
  intro v hv hp
  rcases vToks_head v hv with ⟨hne, hhead⟩
  cases s with
  | nil =>
    rcases List.prefix_nil.mp hp with rfl
    exact hne rfl
  | cons c r =>
    have := headI_of_pref hne hp
    exact h c (by simp) (this ▸ hhead)

theorem matchSyllAt_none_of_noV {s : List Char}
    (h : ∀ c ∈ s, c ∉ vFirsts) : matchSyllAt s = none := by
  unfold matchSyllAt
  rw [List.findSome?_eq_none_iff]
  intro cr hcr
  have hsub : ∀ c ∈ cr.2, c ∉ vFirsts := by
    intro c hc
    have hdec := (@codaCands_mem s cr.1 cr.2 (by simpa using hcr)).1
    exact h c (by rw [hdec]; exact List.mem_append_right _ hc)
  rw [matchTok_vToks_none_of hsub]

theorem scanMatches_nil_of_noV :
    ∀ n (s : List Char), s.length = n → (∀ c ∈ s, c ∉ vFirsts) →
      scanMatches s = [] := by
  intro n
  induction n using Nat.strong_induction_on with
  | _ n ih =>
    intro s hn h
    cases s with
    | nil => exact scanMatches_nil
    | cons c rest =>
      rw [scanMatches_cons, matchSyllAt_none_of_noV h]
      exact ih rest.length (by subst hn; simp) rest rfl
        (fun c' hc' => h c' (by simp [hc']))

/-- C6: an input without any Vowel-category symbol (the empty string
included) syllabifies to the empty syllabification; no error value is
involved, the result is simply empty. -/
theorem C6_silent_drop (w : List Char)
    (h : ∀ v ∈ VOWELS, ¬ v <:+: w) : syllabify w = [] := by
  have hchar : ∀ c ∈ w, c ∉ vFirsts := by
    intro c hc hcf
    have hsingle : ∀ c' ∈ vFirsts, [c'] ∈ VOWELS := by decide
    have hv : [c] ∈ VOWELS := hsingle c hcf
    have : [c] <:+: w := by
      rcases List.mem_iff_append.mp hc with ⟨s, t, rfl⟩
      exact ⟨s, t, by simp⟩
    exact h [c] hv this
  have hm : ∀ c ∈ mirrored w, c ∉ vFirsts := by
    intro c hc
    exact hchar c (mirrored_mem_iff.mp hc)
  unfold syllabify
  rw [scanMatches_nil_of_noV (mirrored w).length (mirrored w) rfl hm]
  rfl

/-- Witness for C6 at the concrete vowel-less word `"tk"`. -/
theorem C6_silent_drop_witness :
    (∀ v ∈ VOWELS, ¬ v <:+: (['t', 'k'] : List Char)) ∧
      syllabify ['t', 'k'] = [] :=
  ⟨by decide, C6_silent_drop ['t', 'k'] (by decide)⟩

/-!
## Alternation precedence
-/

theorem firstTok_at (toks pre post : List Tok) (t : Tok) (r : List Char)
    (hdec : toks = pre ++ t :: post)
    (hpre : ∀ u ∈ pre, ¬ u <+: t ∧ ¬ t <+: u) :
    firstTok toks (t ++ r) = some t := by
  subst hdec
  induction pre with
  | nil =>
    rw [List.nil_append, firstTok_cons,
      if_pos (pref_of_pref_append r (List.prefix_refl t))]
  | cons u us ih =>
    have hu := hpre u (by simp)
    have hnot : ¬ u <+: t ++ r := by
      intro hc
      rcases pref_ext r hc with h1 | h1
      · exact hu.1 h1
      · exact hu.2 h1
    rw [List.cons_append, firstTok_cons, if_neg hnot]
    exact ih (fun v hv => hpre v (by simp [hv]))

theorem firstTok_skip (toks : List Tok) (t : Tok) (r : List Char)
    (hmem : t ∈ toks)
    (h : ∀ u ∈ toks, (¬ u <+: t ∧ ¬ t <+: u) ∨ u = t) :
    firstTok toks (t ++ r) = some t := by
  induction toks with
  | nil => cases hmem
  | cons u us ih =>
    by_cases he : u = t
    · subst he
      rw [firstTok_cons, if_pos (pref_of_pref_append r (List.prefix_refl u))]
    · rcases h u (by simp) with hu | hu
      · have hnot : ¬ u <+: t ++ r := by
          intro hc
          rcases pref_ext r hc with h1 | h1
          · exact hu.1 h1
          · exact hu.2 h1
        rw [firstTok_cons, if_neg hnot]
        refine ih ?_ (fun v hv => h v (by simp [hv]))
        rcases List.mem_cons.mp hmem with rfl | hm
        · exact absurd rfl he
        · exact hm
      · exact absurd hu he

theorem complexSounds_pairs :
    ∀ k ∈ complexSounds, ∀ u ∈ complexSounds,
      (¬ u <+: k ∧ ¬ k <+: u) ∨ u = k := by decide

theorem vToks_explicit :
    vToks = [['i', breveC, 'ɛ'], ['i', breveC, 'e'], ['y', breveC, 'i'],
      ['u', breveC, 'a'], ['ɔ', tildeC], ['œ', tildeC], ['ɛ', tildeC],
      ['ɑ', tildeC], ['u'], ['o'], ['ɔ'], ['ɑ'], ['y'], ['ø'], ['œ'], ['ə'],
      ['i'], ['e'], ['ɛ'], ['a']] := by decide

theorem cToks_explicit :
    cToks = [['l'], ['ʁ'], ['ɥ'], ['w'], ['j'], ['d', 'ʒ'], ['t', 'ʃ'],
      [apoC], ['ŋ'], ['ɲ'], ['ʒ'], ['ʃ'], ['g'], ['k'], ['n'], ['z'], ['s'],
      ['d'], ['t'], ['m'], ['v'], ['f'], ['b'], ['p']] := by decide

/-- C5: alternation precedence.  For every suffix context `r`:
the mirror transform's scan, positioned at an occurrence of a
multi-codepoint symbol, always consumes exactly that symbol (never a
shorter or different alternative); the grammar's nucleus matcher `V`,
positioned at an occurrence of a multi-codepoint vowel (nasal vowel or
diphthong), matches that vowel and never its base-vowel proper prefix;
and the grammar's consonant matcher `C`, positioned at an occurrence of
an affricate, matches the affricate and never its leading consonant
alone. -/
theorem C5_alternation_precedence (r : List Char) :
    (∀ k ∈ complexSounds, firstTok complexSounds (k ++ r) = some k) ∧
    (∀ v ∈ vToks, 2 ≤ v.length → firstTok vToks (v ++ r) = some v) ∧
    firstTok cToks (['t', 'ʃ'] ++ r) = some ['t', 'ʃ'] ∧
    firstTok cToks (['d', 'ʒ'] ++ r) = some ['d', 'ʒ'] := by
  refine ⟨?_, ?_, ?_, ?_⟩
  · intro k hk
    exact firstTok_skip _ _ r hk (complexSounds_pairs k hk)
  · intro v hv hlen
    rw [vToks_explicit] at hv
    fin_cases hv
    · exact firstTok_at _ [] _ _ r vToks_explicit (by simp)
    · exact firstTok_at _ [['i', breveC, 'ɛ']] _ _ r vToks_explicit (by decide)
    · exact firstTok_at _ [['i', breveC, 'ɛ'], ['i', breveC, 'e']] _ _ r
        vToks_explicit (by decide)
    · exact firstTok_at _ [['i', breveC, 'ɛ'], ['i', breveC, 'e'],
        ['y', breveC, 'i']] _ _ r vToks_explicit (by decide)
    · exact firstTok_at _ [['i', breveC, 'ɛ'], ['i', breveC, 'e'],
        ['y', breveC, 'i'], ['u', breveC, 'a']] _ _ r vToks_explicit (by decide)
    · exact firstTok_at _ [['i', breveC, 'ɛ'], ['i', breveC, 'e'],
        ['y', breveC, 'i'], ['u', breveC, 'a'], ['ɔ', tildeC]] _ _ r
        vToks_explicit (by decide)
    · exact firstTok_at _ [['i', breveC, 'ɛ'], ['i', breveC, 'e'],
        ['y', breveC, 'i'], ['u', breveC, 'a'], ['ɔ', tildeC], ['œ', tildeC]]
        _ _ r vToks_explicit (by decide)
    · exact firstTok_at _ [['i', breveC, 'ɛ'], ['i', breveC, 'e'],
        ['y', breveC, 'i'], ['u', breveC, 'a'], ['ɔ', tildeC], ['œ', tildeC],
        ['ɛ', tildeC]] _ _ r vToks_explicit (by decide)
    all_goals simp at hlen
  · exact firstTok_at _ [['l'], ['ʁ'], ['ɥ'], ['w'], ['j'], ['d', 'ʒ']] _ _ r
      cToks_explicit (by decide)
  · exact firstTok_at _ [['l'], ['ʁ'], ['ɥ'], ['w'], ['j']] _ _ r
      cToks_explicit (by decide)

/-!
## Words as sequences of inventory symbols

A well-formed word is a concatenation of inventory Symbols.  We
represent the decomposition explicitly as a token list.
-/

/-- The full symbol inventory of the program. -/
def Symbols : List Tok := LIQUIDS ++ GLIDES ++ VOWELS ++ CONSONANTS

/-- The codepoints a symbol can start with. -/
def symFirst : List Char :=
  ['ʁ', 'l', 'j', 'w', 'ɥ',
   'a', 'ɛ', 'e', 'i', 'ə', 'œ', 'ø', 'y', 'ɑ', 'ɔ', 'o', 'u',
   'p', 'b', 'f', 'v', 'm', 't', 'd', 's', 'z', 'n', 'k', 'g',
   'ʃ', 'ʒ', 'ɲ', 'ŋ', apoC]

theorem Symbols_ne_nil : ∀ t ∈ Symbols, t ≠ [] := by decide
theorem Symbols_head : ∀ t ∈ Symbols, t.headI ∈ symFirst := by decide
theorem marks_not_first : tildeC ∉ symFirst ∧ breveC ∉ symFirst := by decide
theorem sh_single : ∀ t ∈ Symbols, t.headI = 'ʃ' → t = ['ʃ'] := by decide
theorem zh_single : ∀ t ∈ Symbols, t.headI = 'ʒ' → t = ['ʒ'] := by decide
theorem Symbols_multi_complex : ∀ t ∈ Symbols, t.length ≠ 1 → t ∈ complexSounds := by
  decide

/-- Two given tokens occur immediately adjacent (in this order) in the
list. -/
def hasAdj (a b : Tok) (l : List Tok) : Prop := (a, b) ∈ l.zip l.tail

instance hasAdjDec (a b : Tok) (l : List Tok) : Decidable (hasAdj a b l) :=
  inferInstanceAs (Decidable ((a, b) ∈ l.zip l.tail))

theorem hasAdj_cons₂ {a b x y : Tok} {rest : List Tok} :
    hasAdj a b (x :: y :: rest) ↔ (x = a ∧ y = b) ∨ hasAdj a b (y :: rest) := by
  unfold hasAdj
  simp only [List.tail_cons, List.zip_cons_cons, List.mem_cons, Prod.mk.injEq]
  constructor
  · rintro (⟨h1, h2⟩ | h)
    · exact Or.inl ⟨h1.symm, h2.symm⟩
    · exact Or.inr h
  · rintro (⟨h1, h2⟩ | h)
    · exact Or.inl ⟨h1.symm, h2.symm⟩
    · exact Or.inr h

theorem hasAdj_short {a b : Tok} {l : List Tok} (h : l.length ≤ 1) :
    ¬ hasAdj a b l := by
  match l with
  | [] => intro hc; cases hc
  | [x] => intro hc; cases hc
  | x :: y :: rest => simp at h

theorem hasAdj_tail {a b x : Tok} {l : List Tok} (h : ¬ hasAdj a b (x :: l)) :
    ¬ hasAdj a b l := by
  intro hc
  cases l with
  | nil => cases hc
  | cons y rest => exact h (hasAdj_cons₂.mpr (Or.inr hc))

theorem hasAdj_iff {a b : Tok} {l : List Tok} :
    hasAdj a b l ↔ ∃ l1 l2, l = l1 ++ a :: b :: l2 := by
  constructor
  · intro h
    induction l with
    | nil => cases h
    | cons x rest ih =>
      cases rest with
      | nil => cases h
      | cons y rest' =>
        rcases hasAdj_cons₂.mp h with ⟨h1, h2⟩ | h
        · exact ⟨[], rest', by rw [h1, h2]; rfl⟩
        · rcases ih h with ⟨l1, l2, he⟩
          exact ⟨x :: l1, l2, by rw [List.cons_append, he]⟩
  · rintro ⟨l1, l2, rfl⟩
    induction l1 with
    | nil => exact hasAdj_cons₂.mpr (Or.inl ⟨rfl, rfl⟩)
    | cons x l1' ih =>
      cases hl : l1' ++ a :: b :: l2 with
      | nil => exact absurd hl (by simp)
      | cons z zs =>
        rw [List.cons_append, hl]
        refine hasAdj_cons₂.mpr (Or.inr ?_)
        rw [← hl]
        exact ih

theorem hasAdj_reverse {a b : Tok} {l : List Tok} :
    hasAdj a b l.reverse ↔ hasAdj b a l := by
  rw [hasAdj_iff, hasAdj_iff]
  constructor
  · rintro ⟨l1, l2, he⟩
    refine ⟨l2.reverse, l1.reverse, ?_⟩
    have := congrArg List.reverse he
    simpa using this
  · rintro ⟨l1, l2, rfl⟩
    exact ⟨l2.reverse, l1.reverse, by simp⟩

theorem flatten_headI {ss : List Tok} {c2 : Char}
    (hs : ∀ t ∈ ss, t ∈ Symbols)
    (h : ss.flatten.head? = some c2) :
    ∃ t1 rest2, ss = t1 :: rest2 ∧ t1.headI = c2 := by
  cases ss with
  | nil => simp at h
  | cons t1 rest2 =>
    have hne : t1 ≠ [] := Symbols_ne_nil t1 (hs t1 (by simp))
    cases ht : t1 with
    | nil => exact absurd ht hne
    | cons x xs =>
      subst ht
      simp only [List.flatten_cons, List.cons_append, List.head?_cons,
        Option.some.injEq] at h
      exact ⟨x :: xs, rest2, rfl, by simp [h]⟩

/-- At a single-codepoint symbol the mirror's scan finds no
multi-codepoint occurrence, provided the following material starts with a
symbol codepoint (never a combining mark) and the two affricates are not
split across the boundary. -/
theorem firstTok_K_none (c : Char) (f : List Char)
    (hf : ∀ c2, f.head? = some c2 → c2 ≠ tildeC ∧ c2 ≠ breveC)
    (ht : ¬ (c = 't' ∧ f.head? = some 'ʃ'))
    (hd : ¬ (c = 'd' ∧ f.head? = some 'ʒ')) :
    firstTok complexSounds (c :: f) = none := by
  apply firstTok_eq_none
  intro k hk
  cases f with
  | nil =>
    fin_cases hk <;>
      · intro hp
        rcases List.cons_prefix_cons.mp hp with ⟨_, h2⟩
        simp [List.prefix_nil] at h2
  | cons c2 f' =>
    have hmark := hf c2 rfl
    fin_cases hk <;>
      · intro hp
        rcases List.cons_prefix_cons.mp hp with ⟨h1, h2⟩
        rcases List.cons_prefix_cons.mp h2 with ⟨h3, _⟩
        first
          | exact hmark.1 h3.symm
          | exact hmark.2 h3.symm
          | exact ht ⟨h1.symm, by rw [← h3]; rfl⟩
          | exact hd ⟨h1.symm, by rw [← h3]; rfl⟩

/-- Stability of the mirror's substitution scan on a symbol sequence:
with no affricate split across two single symbols, the scan reverses
exactly the multi-codepoint symbols. -/
theorem subC_stable :
    ∀ n (ts : List Tok), ts.length = n → (∀ t ∈ ts, t ∈ Symbols) →
      ¬ hasAdj ['t'] ['ʃ'] ts → ¬ hasAdj ['d'] ['ʒ'] ts →
      subComplex ts.flatten = (ts.map List.reverse).flatten := by
  intro n
  induction n using Nat.strong_induction_on with
  | _ n ih =>
    intro ts hn hs hts hds
    cases ts with
    | nil => rfl
    | cons tok rest =>
      have htokmem : tok ∈ Symbols := hs tok (by simp)
      have hne : tok ≠ [] := Symbols_ne_nil tok htokmem
      have hrests : ∀ t ∈ rest, t ∈ Symbols := fun t ht => hs t (by simp [ht])
      have hih := ih rest.length (by subst hn; simp) rest rfl hrests
        (hasAdj_tail hts) (hasAdj_tail hds)
      by_cases hlen : tok.length = 1
      · obtain ⟨c, rfl⟩ : ∃ c, tok = [c] := by
          cases tok with
          | nil => simp at hlen
          | cons x xs =>
            cases xs with
            | nil => exact ⟨x, rfl⟩
            | cons y ys => simp at hlen
        have hnone : firstTok complexSounds (c :: rest.flatten) = none := by
          apply firstTok_K_none
          · intro c2 hc2
            rcases flatten_headI hrests hc2 with ⟨t1, rest2, rfl, hhead⟩
            have := Symbols_head t1 (hrests t1 (by simp))
            rw [hhead] at this
            constructor
            · intro he; rw [he] at this; exact marks_not_first.1 this
            · intro he; rw [he] at this; exact marks_not_first.2 this
          · rintro ⟨rfl, hsh⟩
            rcases flatten_headI hrests hsh with ⟨t1, rest2, rfl, hhead⟩
            have ht1 : t1 = ['ʃ'] := sh_single t1 (hrests t1 (by simp)) hhead
            subst ht1
            exact hts (hasAdj_cons₂.mpr (Or.inl ⟨rfl, rfl⟩))
          · rintro ⟨rfl, hzh⟩
            rcases flatten_headI hrests hzh with ⟨t1, rest2, rfl, hhead⟩
            have ht1 : t1 = ['ʒ'] := zh_single t1 (hrests t1 (by simp)) hhead
            subst ht1
            exact hds (hasAdj_cons₂.mpr (Or.inl ⟨rfl, rfl⟩))
        calc subComplex (([c] :: rest).flatten)
            = subComplex (c :: rest.flatten) := by simp
          _ = c :: subComplex rest.flatten := by
              rw [subComplex_cons, hnone]
          _ = ((([c] :: rest)).map List.reverse).flatten := by
              rw [hih]; simp
      · have hK : tok ∈ complexSounds := Symbols_multi_complex tok htokmem hlen
        obtain ⟨c, tok', rfl⟩ : ∃ c tok', tok = c :: tok' := by
          cases tok with
          | nil => exact absurd rfl hne
          | cons x xs => exact ⟨x, xs, rfl⟩
        have hfst : firstTok complexSounds ((c :: tok') ++ rest.flatten)
            = some (c :: tok') :=
          firstTok_skip _ _ _ hK (complexSounds_pairs _ hK)
        calc subComplex (((c :: tok') :: rest).flatten)
            = subComplex (c :: (tok' ++ rest.flatten)) := by simp
          _ = (c :: tok').reverse ++ subComplex rest.flatten := by
              rw [subComplex_cons]
              have hfst' : firstTok complexSounds (c :: (tok' ++ rest.flatten))
                  = some (c :: tok') := hfst
              simp only [hfst']
              congr 1
              exact congrArg subComplex (List.drop_left (c :: tok') rest.flatten)
          _ = (((c :: tok') :: rest).map List.reverse).flatten := by
              rw [hih]; simp

/-- On a symbol sequence without split affricates, `mirrored` reverses
the symbol order and keeps every symbol intact. -/
theorem mirrored_flatten {ts : List Tok}
    (hs : ∀ t ∈ ts, t ∈ Symbols)
    (hts : ¬ hasAdj ['t'] ['ʃ'] ts) (hds : ¬ hasAdj ['d'] ['ʒ'] ts) :
    mirrored ts.flatten = ts.reverse.flatten := by
  unfold mirrored
  rw [show subComplex ts.flatten = (ts.map List.reverse).flatten from
    subC_stable ts.length ts rfl hs hts hds]
  rw [List.reverse_flatten, List.map_map]
  simp [Function.comp]

/-!
## Normalisation of decompositions

The string of an adjacent pair of single symbols `t`,`ʃ` is the same
string as the affricate symbol `tʃ` (and likewise `d`,`ʒ` and `dʒ`), and
the program operates on strings only.  `norm` rewrites a symbol
decomposition so that affricates are written as single symbols, changing
neither the denoted string nor the vowel occurrences.
-/

def norm : List Tok → List Tok
  | [] => []
  | [a] => [a]
  | a :: b :: rest =>
    if a = ['t'] ∧ b = ['ʃ'] then ['t', 'ʃ'] :: norm rest
    else if a = ['d'] ∧ b = ['ʒ'] then ['d', 'ʒ'] :: norm rest
    else a :: norm (b :: rest)

theorem norm_flatten_aux : ∀ n (ts : List Tok), ts.length = n →
    (norm ts).flatten = ts.flatten := by
  intro n
  induction n using Nat.strong_induction_on with
  | _ n ih =>
    intro ts hn
    match ts with
    | [] => rfl
    | [a] => rfl
    | a :: b :: rest =>
      subst hn
      by_cases h1 : a = ['t'] ∧ b = ['ʃ']
      · rw [norm, if_pos h1]
        rcases h1 with ⟨rfl, rfl⟩
        simp only [List.flatten_cons]
        rw [ih rest.length (by simp only [List.length_cons]; omega) rest rfl]
        simp
      · by_cases h2 : a = ['d'] ∧ b = ['ʒ']
        · rw [norm, if_neg h1, if_pos h2]
          rcases h2 with ⟨rfl, rfl⟩
          simp only [List.flatten_cons]
          rw [ih rest.length (by simp only [List.length_cons]; omega) rest rfl]
          simp
        · rw [norm, if_neg h1, if_neg h2]
          simp only [List.flatten_cons]
          rw [ih (b :: rest).length (by simp only [List.length_cons]; omega) (b :: rest) rfl]
          simp

theorem norm_flatten (ts : List Tok) : (norm ts).flatten = ts.flatten :=
  norm_flatten_aux ts.length ts rfl

theorem norm_symbols_aux : ∀ n (ts : List Tok), ts.length = n →
    (∀ t ∈ ts, t ∈ Symbols) → ∀ t ∈ norm ts, t ∈ Symbols := by
  intro n
  induction n using Nat.strong_induction_on with
  | _ n ih =>
    intro ts hn
    match ts with
    | [] => intro _ t ht; cases ht
    | [a] => intro hs t ht; rw [norm] at ht; exact hs t ht
    | a :: b :: rest =>
      subst hn
      intro hs t ht
      by_cases h1 : a = ['t'] ∧ b = ['ʃ']
      · rw [norm, if_pos h1] at ht
        rcases List.mem_cons.mp ht with rfl | ht
        · decide
        · exact ih rest.length (by simp only [List.length_cons]; omega) rest rfl
            (fun u hu => hs u (by simp [hu])) t ht
      · by_cases h2 : a = ['d'] ∧ b = ['ʒ']
        · rw [norm, if_neg h1, if_pos h2] at ht
          rcases List.mem_cons.mp ht with rfl | ht
          · decide
          · exact ih rest.length (by simp only [List.length_cons]; omega) rest rfl
              (fun u hu => hs u (by simp [hu])) t ht
        · rw [norm, if_neg h1, if_neg h2] at ht
          rcases List.mem_cons.mp ht with rfl | ht
          · exact hs t (by simp)
          · exact ih (b :: rest).length (by simp only [List.length_cons]; omega) (b :: rest) rfl
              (fun u hu => hs u (by simp [hu])) t ht

theorem norm_symbols {ts : List Tok} (hs : ∀ t ∈ ts, t ∈ Symbols) :
    ∀ t ∈ norm ts, t ∈ Symbols :=
  norm_symbols_aux ts.length ts rfl hs

/-- One-step shape of `norm` on a nonempty list: the head of the result
is the original head or an affricate formed from it. -/
theorem norm_head (b : Tok) (rest : List Tok) :
    ∃ hd tl, norm (b :: rest) = hd :: tl ∧
      (hd = b ∨ (b = ['t'] ∧ hd = ['t', 'ʃ']) ∨ (b = ['d'] ∧ hd = ['d', 'ʒ'])) := by
  cases rest with
  | nil => exact ⟨b, [], by rw [norm], Or.inl rfl⟩
  | cons c rest' =>
    by_cases h1 : b = ['t'] ∧ c = ['ʃ']
    · exact ⟨['t', 'ʃ'], norm rest', by rw [norm, if_pos h1],
        Or.inr (Or.inl ⟨h1.1, rfl⟩)⟩
    · by_cases h2 : b = ['d'] ∧ c = ['ʒ']
      · exact ⟨['d', 'ʒ'], norm rest', by rw [norm, if_neg h1, if_pos h2],
          Or.inr (Or.inr ⟨h2.1, rfl⟩)⟩
      · exact ⟨b, norm (c :: rest'), by rw [norm, if_neg h1, if_neg h2], Or.inl rfl⟩

theorem hasAdj_nil {a b : Tok} : ¬ hasAdj a b [] := by
  intro hc; simp [hasAdj] at hc

theorem hasAdj_one {a b x : Tok} : ¬ hasAdj a b [x] := by
  intro hc; simp [hasAdj] at hc

theorem norm_adj_aux : ∀ n (ts : List Tok), ts.length = n →
    (¬ hasAdj ['t'] ['ʃ'] (norm ts)) ∧ (¬ hasAdj ['d'] ['ʒ'] (norm ts)) ∧
    (¬ hasAdj ['ʃ'] ['t'] ts → ¬ hasAdj ['ʃ'] ['t'] (norm ts)) ∧
    (¬ hasAdj ['ʒ'] ['d'] ts → ¬ hasAdj ['ʒ'] ['d'] (norm ts)) := by
  intro n
  induction n using Nat.strong_induction_on with
  | _ n ih =>
    intro ts hn
    subst hn
    match ts with
    | [] =>
      exact ⟨hasAdj_nil, hasAdj_nil, fun _ => hasAdj_nil, fun _ => hasAdj_nil⟩
    | [a] =>
      rw [norm]
      exact ⟨hasAdj_one, hasAdj_one, fun _ => hasAdj_one, fun _ => hasAdj_one⟩
    | a :: b :: rest =>
      have hihr := ih rest.length (by simp only [List.length_cons]; omega) rest rfl
      have hihbr := ih (b :: rest).length (by simp only [List.length_cons]; omega)
        (b :: rest) rfl
      have step : ∀ (x : Tok) (l : List Tok) (p q : Tok),
          (¬ (x = p)) → ¬ hasAdj p q l → ¬ hasAdj p q (x :: l) := by
        intro x l p q hx hl hc
        cases l with
        | nil => cases hc
        | cons z zs =>
          rcases hasAdj_cons₂.mp hc with ⟨h1, _⟩ | hc2
          · exact hx h1
          · exact hl hc2
      have stepHd : ∀ (x : Tok) (l : List Tok) (p q : Tok),
          (∀ hd tl, l = hd :: tl → ¬ (x = p ∧ hd = q)) → ¬ hasAdj p q l →
            ¬ hasAdj p q (x :: l) := by
        intro x l p q hx hl hc
        cases l with
        | nil => cases hc
        | cons z zs =>
          rcases hasAdj_cons₂.mp hc with ⟨h1, h2⟩ | hc2
          · exact hx z zs rfl ⟨h1, h2⟩
          · exact hl hc2
      by_cases h1 : a = ['t'] ∧ b = ['ʃ']
      · rw [norm, if_pos h1]
        refine ⟨step _ _ _ _ (by decide) hihr.1, step _ _ _ _ (by decide) hihr.2.1,
          fun hna => step _ _ _ _ (by decide)
            (hihr.2.2.1 (hasAdj_tail (hasAdj_tail hna))),
          fun hna => step _ _ _ _ (by decide)
            (hihr.2.2.2 (hasAdj_tail (hasAdj_tail hna)))⟩
      · by_cases h2 : a = ['d'] ∧ b = ['ʒ']
        · rw [norm, if_neg h1, if_pos h2]
          refine ⟨step _ _ _ _ (by decide) hihr.1, step _ _ _ _ (by decide) hihr.2.1,
            fun hna => step _ _ _ _ (by decide)
              (hihr.2.2.1 (hasAdj_tail (hasAdj_tail hna))),
            fun hna => step _ _ _ _ (by decide)
              (hihr.2.2.2 (hasAdj_tail (hasAdj_tail hna)))⟩
        · rw [norm, if_neg h1, if_neg h2]
          obtain ⟨hd, tl, hnorm, hhd⟩ := norm_head b rest
          refine ⟨?_, ?_, ?_, ?_⟩
          · refine stepHd _ _ _ _ ?_ hihbr.1
            intro hd' tl' he hx
            rw [hnorm] at he
            cases he
            rcases hhd with rfl | ⟨rfl, rfl⟩ | ⟨rfl, rfl⟩
            · exact h1 ⟨hx.1, hx.2⟩
            · simp at hx
            · simp at hx
          · refine stepHd _ _ _ _ ?_ hihbr.2.1
            intro hd' tl' he hx
            rw [hnorm] at he
            cases he
            rcases hhd with rfl | ⟨rfl, rfl⟩ | ⟨rfl, rfl⟩
            · exact h2 ⟨hx.1, hx.2⟩
            · simp at hx
            · simp at hx
          · intro hna
            have hna' : ¬ hasAdj ['ʃ'] ['t'] (b :: rest) := hasAdj_tail hna
            refine stepHd _ _ _ _ ?_ (hihbr.2.2.1 hna')
            intro hd' tl' he hx
            rw [hnorm] at he
            cases he
            rcases hhd with rfl | ⟨rfl, rfl⟩ | ⟨rfl, rfl⟩
            · exact hna (hasAdj_cons₂.mpr (Or.inl ⟨hx.1, hx.2⟩))
            · simp at hx
            · simp at hx
          · intro hna
            have hna' : ¬ hasAdj ['ʒ'] ['d'] (b :: rest) := hasAdj_tail hna
            refine stepHd _ _ _ _ ?_ (hihbr.2.2.2 hna')
            intro hd' tl' he hx
            rw [hnorm] at he
            cases he
            rcases hhd with rfl | ⟨rfl, rfl⟩ | ⟨rfl, rfl⟩
            · exact hna (hasAdj_cons₂.mpr (Or.inl ⟨hx.1, hx.2⟩))
            · simp at hx
            · simp at hx

theorem norm_no_t_sh (ts : List Tok) : ¬ hasAdj ['t'] ['ʃ'] (norm ts) :=
  (norm_adj_aux ts.length ts rfl).1

theorem norm_no_d_zh (ts : List Tok) : ¬ hasAdj ['d'] ['ʒ'] (norm ts) :=
  (norm_adj_aux ts.length ts rfl).2.1

theorem norm_keep_sh_t {ts : List Tok} (h : ¬ hasAdj ['ʃ'] ['t'] ts) :
    ¬ hasAdj ['ʃ'] ['t'] (norm ts) :=
  (norm_adj_aux ts.length ts rfl).2.2.1 h

theorem norm_keep_zh_d {ts : List Tok} (h : ¬ hasAdj ['ʒ'] ['d'] ts) :
    ¬ hasAdj ['ʒ'] ['d'] (norm ts) :=
  (norm_adj_aux ts.length ts rfl).2.2.2 h

/-!
## The mirror involution claim
-/

/-- C3, counterexample: the two-symbol string `"ʃt"` (the consonant `ʃ`
followed by the consonant `t`, both inventory symbols) is not a fixed
point of `mirrored ∘ mirrored`: the repair pass of the second mirror
mistakes the reversed affricate for an occurrence of `tʃ`, and the string
comes back as `"tʃ"`. -/
theorem C3_mirror_involution_cx :
    ((['ʃ'] : Tok) ∈ Symbols ∧ (['t'] : Tok) ∈ Symbols ∧
      ([['ʃ'], ['t']] : List Tok).flatten = ['ʃ', 't']) ∧
    mirrored (mirrored ['ʃ', 't']) = ['t', 'ʃ'] ∧
    mirrored (mirrored ['ʃ', 't']) ≠ ['ʃ', 't'] := by
  exact ⟨⟨by decide, by decide, rfl⟩, by decide, by decide⟩

/-- C3, amended: `mirrored` is an involution on every string composed of
inventory symbols in which no affricate appears written backwards — that
is, no single symbol `ʃ` immediately followed by a single symbol `t`, and
no `ʒ` immediately followed by `d`.  (An adjacent pair `t`,`ʃ` of single
symbols denotes the same string as the affricate symbol `tʃ` and is
handled by normalising the decomposition.) -/
theorem C3_mirror_involution_amended (ts : List Tok)
    (h1 : ∀ t ∈ ts, t ∈ Symbols)
    (h2 : ¬ hasAdj ['ʃ'] ['t'] ts) (h3 : ¬ hasAdj ['ʒ'] ['d'] ts) :
    mirrored (mirrored ts.flatten) = ts.flatten := by
  rw [← norm_flatten ts]
  have hs' : ∀ t ∈ norm ts, t ∈ Symbols := norm_symbols h1
  have hrev : ∀ t ∈ (norm ts).reverse, t ∈ Symbols := by
    intro t ht; exact hs' t (List.mem_reverse.mp ht)
  rw [mirrored_flatten hs' (norm_no_t_sh ts) (norm_no_d_zh ts)]
  rw [mirrored_flatten hrev
    (fun hc => norm_keep_sh_t h2 (hasAdj_reverse.mp hc))
    (fun hc => norm_keep_zh_d h3 (hasAdj_reverse.mp hc))]
  rw [List.reverse_reverse]

/-- Witness for the amended C3 at the concrete decomposition of
`"kalkyləʁjɔ̃"`. -/
theorem C3_mirror_involution_amended_witness :
    ((∀ t ∈ ([['k'], ['a'], ['l'], ['k'], ['y'], ['l'], ['ə'], ['ʁ'], ['j'],
        ['ɔ', tildeC]] : List Tok), t ∈ Symbols) ∧
      ¬ hasAdj ['ʃ'] ['t'] [['k'], ['a'], ['l'], ['k'], ['y'], ['l'], ['ə'],
        ['ʁ'], ['j'], ['ɔ', tildeC]] ∧
      ¬ hasAdj ['ʒ'] ['d'] [['k'], ['a'], ['l'], ['k'], ['y'], ['l'], ['ə'],
        ['ʁ'], ['j'], ['ɔ', tildeC]]) ∧
    mirrored (mirrored ([['k'], ['a'], ['l'], ['k'], ['y'], ['l'], ['ə'],
        ['ʁ'], ['j'], ['ɔ', tildeC]] : List Tok).flatten) =
      ([['k'], ['a'], ['l'], ['k'], ['y'], ['l'], ['ə'], ['ʁ'], ['j'],
        ['ɔ', tildeC]] : List Tok).flatten :=
  ⟨⟨by decide, by decide, by decide⟩,
    C3_mirror_involution_amended _ (by decide) (by decide) (by decide)⟩

/-!
## Greedy characterisation of one pattern attempt

The coda repetition `C*` consumes, codepoint-wise, exactly the maximal
run of `C`-class codepoints: every alternative of `C` starts with such a
codepoint and every such codepoint is itself an alternative, and the
backtracking candidates shorter than the maximal run leave a `C`-class
codepoint in front of the nucleus matcher, where no vowel alternative
can match.  Hence the engine never backtracks out of the greedy coda.
-/

def isC (c : Char) : Bool := decide (c ∈ cChars)

theorem cToks_head : ∀ t ∈ cToks, t ≠ [] ∧ t.headI ∈ cChars := by decide

theorem cChars_not_vFirsts : ∀ c ∈ cChars, c ∉ vFirsts := by decide

theorem matchTok_vToks_head_none {c : Char} {f : List Char}
    (h : c ∉ vFirsts) : matchTok vToks (c :: f) = none := by
  apply matchTok_none
  intro v hv hp
  rcases vToks_head v hv with ⟨hne, hhead⟩
  have := headI_of_pref hne hp
  exact h (this ▸ hhead)

theorem allToks_nil_nil : allToks cToks [] = [] := by decide

theorem allToks_nil_head {c : Char} {r : List Char} (h : c ∉ cChars) :
    allToks cToks (c :: r) = [] := by
  unfold allToks
  rw [List.filterMap_eq_nil_iff]
  intro t ht
  have hne : t ≠ [] := (cToks_head t ht).1
  have : t.isPrefixOf (c :: r) = false := by
    cases hb : t.isPrefixOf (c :: r) with
    | false => rfl
    | true =>
      have hp := isPref_iff.mp hb
      have := headI_of_pref hne hp
      exact absurd (this ▸ (cToks_head t ht).2) h
  simp [this]

theorem mem_allToks_of {toks : List Tok} {t : Tok} {s : List Char}
    (ht : t ∈ toks) (hp : t <+: s) : (t, s.drop t.length) ∈ allToks toks s := by
  unfold allToks
  apply List.mem_filterMap.mpr
  exact ⟨t, ht, by rw [if_pos (isPref_iff.mpr hp)]⟩

theorem allToks_ne_nil {c : Char} {r : List Char} (h : c ∈ cChars) :
    allToks cToks (c :: r) ≠ [] := by
  intro he
  have hm : [c] ∈ cToks := cChars_single c h
  have hp : [c] <+: c :: r := List.cons_prefix_cons.mpr ⟨rfl, List.nil_prefix⟩
  have := mem_allToks_of hm hp
  rw [he] at this
  cases this

theorem takeWhile_all_append {p : Char → Bool} :
    ∀ (l1 l2 : List Char), (∀ a ∈ l1, p a = true) →
      (l1 ++ l2).takeWhile p = l1 ++ l2.takeWhile p ∧
      (l1 ++ l2).dropWhile p = l2.dropWhile p := by
  intro l1
  induction l1 with
  | nil => intro l2 _; simp
  | cons a l1 ih =>
    intro l2 h
    have ha : p a = true := h a (by simp)
    have := ih l2 (fun b hb => h b (by simp [hb]))
    constructor
    · rw [List.cons_append, List.takeWhile_cons_of_pos ha, this.1]
      rfl
    · rw [List.cons_append, List.dropWhile_cons_of_pos ha, this.2]

theorem codaCands_head :
    ∀ n (s : List Char), s.length = n →
      ∃ tl, codaCands s = (s.takeWhile isC, s.dropWhile isC) :: tl := by
  intro n
  induction n using Nat.strong_induction_on with
  | _ n ih =>
    intro s hn
    cases s with
    | nil => exact ⟨[], by decide⟩
    | cons c r =>
      by_cases hc : c ∈ cChars
      · rw [codaCands_eq]
        cases hall : allToks cToks (c :: r) with
        | nil => exact absurd hall (allToks_ne_nil hc)
        | cons tr more =>
          obtain ⟨t1, r1⟩ := tr
          have hmem : (t1, r1) ∈ allToks cToks (c :: r) := by rw [hall]; simp
          rcases allToks_mem hmem with ⟨ht1, he⟩
          have ht1c : ∀ a ∈ t1, isC a = true := by
            intro a ha
            simp only [isC, decide_eq_true_eq]
            exact cToks_chars t1 ht1 a ha
          have hr1lt : r1.length < (c :: r).length := allToks_rest_lt hmem
          obtain ⟨tl', hcands'⟩ := ih r1.length (by subst hn; exact hr1lt) r1 rfl
          have htw := takeWhile_all_append t1 r1 ht1c
          refine ⟨(tl'.map fun cr => (t1 ++ cr.1, cr.2)) ++
            ((more.map (fun tr => (codaCands tr.2).map
              (fun cr => (tr.1 ++ cr.1, cr.2)))).flatten ++ [([], c :: r)]), ?_⟩
          rw [List.map_cons, List.flatten_cons, hcands', List.map_cons]
          rw [he, htw.1, htw.2]
          simp [List.append_assoc]
      · rw [codaCands_eq, allToks_nil_head hc]
        refine ⟨[], ?_⟩
        have h1 : (c :: r).takeWhile isC = [] :=
          List.takeWhile_cons_of_neg (by simp [isC, hc])
        have h2 : (c :: r).dropWhile isC = c :: r :=
          List.dropWhile_cons_of_neg (by simp [isC, hc])
        rw [h1, h2]
        rfl

theorem codaCands_tail_fail :
    ∀ n (s : List Char), s.length = n → ∀ cd r, (cd, r) ∈ codaCands s →
      (cd, r) = (s.takeWhile isC, s.dropWhile isC) ∨
      ∃ c r', r = c :: r' ∧ c ∈ cChars := by
  intro n
  induction n using Nat.strong_induction_on with
  | _ n ih =>
    intro s hn cd r hmem
    rw [codaCands_eq] at hmem
    rcases List.mem_append.mp hmem with hm | hm
    · rcases List.mem_flatten.mp hm with ⟨l, hl, hmem2⟩
      rcases List.mem_map.mp hl with ⟨tr, htr, rfl⟩
      rcases List.mem_map.mp hmem2 with ⟨cr, hcr, he⟩
      have h1 := allToks_mem (s := s) (by exact htr)
      have hlt : tr.2.length < s.length := allToks_rest_lt htr
      have ht1c : ∀ a ∈ tr.1, isC a = true := by
        intro a ha
        simp only [isC, decide_eq_true_eq]
        exact cToks_chars tr.1 h1.1 a ha
      have h2 := ih tr.2.length (by subst hn; exact hlt) tr.2 rfl cr.1 cr.2
        (by simpa using hcr)
      cases he
      rcases h2 with h2 | h2
      · left
        have htw := takeWhile_all_append tr.1 tr.2 ht1c
        rw [h1.2, htw.1, htw.2]
        have hc1 : cr.1 = tr.2.takeWhile isC := congrArg Prod.fst h2
        have hc2 : cr.2 = tr.2.dropWhile isC := congrArg Prod.snd h2
        rw [hc1, hc2]
      · right; exact h2
    · simp at hm
      rcases hm with ⟨h1, h2⟩
      subst h1
      rw [h2]
      cases s with
      | nil => left; rfl
      | cons c r' =>
        by_cases hc : c ∈ cChars
        · right; exact ⟨c, r', rfl, hc⟩
        · left
          have h1 : (c :: r').takeWhile isC = [] :=
            List.takeWhile_cons_of_neg (by simp [isC, hc])
          have h2 : (c :: r').dropWhile isC = c :: r' :=
            List.dropWhile_cons_of_neg (by simp [isC, hc])
          rw [h1, h2]

/-- The deterministic (greedy) form of one pattern attempt. -/
def gMatch (s : List Char) : Option (Syllable × List Char) :=
  match matchTok vToks (s.dropWhile isC) with
  | none => none
  | some (nuc, r2) =>
    let gr := glidePart r2
    let ur := unitPart gr.2
    let sr := sPart ur.2
    some (⟨gr.1 ++ ur.1 ++ sr.1, nuc, s.takeWhile isC⟩, sr.2)

theorem matchSyllAt_eq_g (s : List Char) : matchSyllAt s = gMatch s := by
  unfold matchSyllAt gMatch
  obtain ⟨tl, hcands⟩ := codaCands_head s.length s rfl
  rw [hcands, List.findSome?_cons]
  cases hv : matchTok vToks (s.dropWhile isC) with
  | some nr =>
    obtain ⟨nuc, r2⟩ := nr
    simp only [hv]
  | none =>
    simp only [hv]
    rw [List.findSome?_eq_none_iff]
    intro y hy
    have hymem : y ∈ codaCands s := by rw [hcands]; simp [hy]
    rcases codaCands_tail_fail s.length s rfl y.1 y.2 (by simpa using hymem)
      with h | ⟨c, r', he, hc⟩
    · have : y.2 = s.dropWhile isC := congrArg Prod.snd h
      rw [this, hv]
    · rw [he, matchTok_vToks_head_none (cChars_not_vFirsts c hc)]

/-!
## Matching at symbol boundaries

Every multi-codepoint token of the grammar has a combining mark or an
affricate continuation at its second codepoint, so whether an
alternative matches at a symbol boundary is decided by at most one
codepoint of lookahead into the following material.  The two lemmas
below reduce boundary matching to finitely many checks.
-/

theorem firstTok_seg {toks : List Tok} {t : Tok} {f : List Char} {P : Char → Prop}
    (hf : ∀ c2, f.head? = some c2 → P c2)
    (hnil : firstTok toks t = some t)
    (hone : ∀ c2, P c2 → firstTok toks (t ++ [c2]) = some t)
    (hnoext : ∀ c2, P c2 → ∀ u ∈ toks, ¬ (t ++ [c2]) <+: u) :
    firstTok toks (t ++ f) = some t := by
  cases f with
  | nil => simpa using hnil
  | cons c2 f' =>
    have hc2 : P c2 := hf c2 rfl
    have he : t ++ c2 :: f' = (t ++ [c2]) ++ f' := by simp
    rw [he, firstTok_stop f' (hnoext c2 hc2)]
    exact hone c2 hc2

theorem firstTok_singles {toks : List Tok} (hsing : ∀ u ∈ toks, ∃ d, u = [d])
    (c : Char) (f : List Char) :
    firstTok toks (c :: f) = firstTok toks [c] := by
  induction toks with
  | nil => rfl
  | cons u us ih =>
    obtain ⟨d, rfl⟩ := hsing u (by simp)
    rw [firstTok_cons, firstTok_cons]
    by_cases hd : d = c
    · subst hd
      rw [if_pos (List.cons_prefix_cons.mpr ⟨rfl, List.nil_prefix⟩),
        if_pos (List.prefix_refl _)]
    · have h1 : ¬ [d] <+: c :: f := by
        intro hc
        exact hd (List.cons_prefix_cons.mp hc).1
      have h2 : ¬ [d] <+: [c] := by
        intro hc
        exact hd (List.cons_prefix_cons.mp hc).1
      rw [if_neg h1, if_neg h2]
      exact ih (fun v hv => hsing v (by simp [hv]))

theorem matchV_fact1 : ∀ v ∈ VOWELS, firstTok vToks v = some v := by decide

theorem matchV_fact2 : ∀ v ∈ VOWELS, ∀ c2 ∈ symFirst,
    firstTok vToks (v ++ [c2]) = some v := by decide

theorem matchV_fact3 : ∀ v ∈ VOWELS, ∀ c2 ∈ symFirst, ∀ u ∈ vToks,
    ¬ (v ++ [c2]) <+: u := by decide

/-- The nucleus matcher at a symbol boundary: a vowel symbol followed by
material starting with a symbol codepoint is matched exactly. -/
theorem matchV_seg {v : Tok} {f : List Char} (hv : v ∈ VOWELS)
    (hf : ∀ c2, f.head? = some c2 → c2 ∈ symFirst) :
    matchTok vToks (v ++ f) = some (v, f) :=
  matchTok_append (firstTok_seg hf (matchV_fact1 v hv)
    (fun c2 hc2 => matchV_fact2 v hv c2 hc2)
    (fun c2 hc2 => matchV_fact3 v hv c2 hc2))

theorem flatten_headS {ss : List Tok} (hs : ∀ t ∈ ss, t ∈ Symbols) :
    ∀ c2, ss.flatten.head? = some c2 → c2 ∈ symFirst := by
  intro c2 h
  rcases flatten_headI hs h with ⟨t1, rest2, rfl, hhead⟩
  have := Symbols_head t1 (hs t1 (by simp))
  rwa [hhead] at this

/-- The consonant-class symbols: everything the onset and coda classes
can consume (liquids, glides, consonants). -/
def CSyms : List Tok := LIQUIDS ++ GLIDES ++ CONSONANTS

theorem CSyms_chars : ∀ t ∈ CSyms, ∀ c ∈ t, c ∈ cChars := by decide
theorem Symbols_split : ∀ t ∈ Symbols, t ∈ CSyms ∨ t ∈ VOWELS := by decide
theorem CSyms_not_vowel : ∀ t ∈ CSyms, ¬ t ∈ VOWELS := by decide
theorem CSyms_sub : ∀ t ∈ CSyms, t ∈ Symbols := by decide
theorem VOWELS_head_not_c : ∀ v ∈ VOWELS, v ≠ [] ∧ v.headI ∉ cChars := by decide

theorem matchC_fact1 : ∀ t ∈ CSyms, ¬ (t = ['t'] ∨ t = ['d']) →
    firstTok cToks t = some t := by decide

theorem matchC_fact2 : ∀ t ∈ CSyms, ¬ (t = ['t'] ∨ t = ['d']) →
    ∀ c2 ∈ symFirst, firstTok cToks (t ++ [c2]) = some t := by decide

theorem matchC_fact3 : ∀ t ∈ CSyms, ¬ (t = ['t'] ∨ t = ['d']) →
    ∀ c2 ∈ symFirst, ∀ u ∈ cToks, ¬ (t ++ [c2]) <+: u := by decide

/-- The `C` alternation at a symbol boundary, for any consonant-class
symbol other than the bare `t` and `d` (which interact with a following
`ʃ` or `ʒ`). -/
theorem matchC_seg {t : Tok} {f : List Char} (ht : t ∈ CSyms)
    (hne : ¬ (t = ['t'] ∨ t = ['d']))
    (hf : ∀ c2, f.head? = some c2 → c2 ∈ symFirst) :
    matchTok cToks (t ++ f) = some (t, f) :=
  matchTok_append (firstTok_seg hf (matchC_fact1 t ht hne)
    (fun c2 hc2 => matchC_fact2 t ht hne c2 hc2)
    (fun c2 hc2 => matchC_fact3 t ht hne c2 hc2))

theorem matchC_fact1t : firstTok cToks ['t'] = some ['t'] := by decide

theorem matchC_fact2t : ∀ c2 ∈ symFirst, c2 ≠ 'ʃ' →
    firstTok cToks (['t'] ++ [c2]) = some ['t'] := by decide

theorem matchC_fact3t : ∀ c2 ∈ symFirst, c2 ≠ 'ʃ' →
    ∀ u ∈ cToks, ¬ (['t'] ++ [c2]) <+: u := by decide

theorem matchC_fact1d : firstTok cToks ['d'] = some ['d'] := by decide

theorem matchC_fact2d : ∀ c2 ∈ symFirst, c2 ≠ 'ʒ' →
    firstTok cToks (['d'] ++ [c2]) = some ['d'] := by decide

theorem matchC_fact3d : ∀ c2 ∈ symFirst, c2 ≠ 'ʒ' →
    ∀ u ∈ cToks, ¬ (['d'] ++ [c2]) <+: u := by decide

/-- The `C` alternation at a bare `t` not followed by `ʃ`. -/
theorem matchC_seg_t {f : List Char}
    (hf : ∀ c2, f.head? = some c2 → c2 ∈ symFirst ∧ c2 ≠ 'ʃ') :
    matchTok cToks (['t'] ++ f) = some (['t'], f) :=
  matchTok_append (firstTok_seg hf matchC_fact1t
    (fun c2 hc2 => matchC_fact2t c2 hc2.1 hc2.2)
    (fun c2 hc2 => matchC_fact3t c2 hc2.1 hc2.2))

/-- The `C` alternation at a bare `d` not followed by `ʒ`. -/
theorem matchC_seg_d {f : List Char}
    (hf : ∀ c2, f.head? = some c2 → c2 ∈ symFirst ∧ c2 ≠ 'ʒ') :
    matchTok cToks (['d'] ++ f) = some (['d'], f) :=
  matchTok_append (firstTok_seg hf matchC_fact1d
    (fun c2 hc2 => matchC_fact2d c2 hc2.1 hc2.2)
    (fun c2 hc2 => matchC_fact3d c2 hc2.1 hc2.2))

theorem matchC_head_none {c : Char} {f : List Char} (h : c ∉ cChars) :
    matchTok cToks (c :: f) = none := by
  apply matchTok_none
  intro u hu hp
  rcases cToks_head u hu with ⟨hne, hhead⟩
  have := headI_of_pref hne hp
  exact h (this ▸ hhead)

/-!
## The onset parts at symbol boundaries
-/

theorem matchTok_single_pos {toks : List Tok} (hsing : ∀ u ∈ toks, ∃ d, u = [d])
    {d : Char} {f : List Char} (h : firstTok toks [d] = some [d]) :
    matchTok toks (d :: f) = some ([d], f) := by
  unfold matchTok
  rw [firstTok_singles hsing d f, h]
  simp

theorem matchTok_single_neg {toks : List Tok} (hsing : ∀ u ∈ toks, ∃ d, u = [d])
    {d : Char} {f : List Char} (h : firstTok toks [d] = none) :
    matchTok toks (d :: f) = none := by
  unfold matchTok
  rw [firstTok_singles hsing d f, h]

theorem ySingles : ∀ u ∈ yToks, ∃ d, u = [d] := by
  intro u hu
  fin_cases hu <;> exact ⟨_, rfl⟩

theorem lSingles : ∀ u ∈ lToks, ∃ d, u = [d] := by
  intro u hu
  fin_cases hu <;> exact ⟨_, rfl⟩

theorem lfSingles : ∀ u ∈ lfToks, ∃ d, u = [d] := by
  intro u hu
  fin_cases hu <;> exact ⟨_, rfl⟩

/-- The glide element at a symbol boundary: consumes one glide symbol. -/
theorem glidePart_seg_pos {g : Tok} {f : List Char} (hg : g ∈ GLIDES) :
    glidePart (g ++ f) = (g, f) := by
  unfold glidePart
  fin_cases hg <;>
    · simp only [List.cons_append, List.nil_append]
      rw [matchTok_single_pos ySingles (by decide)]

/-- The glide element consumes nothing when the input does not start with
a glide symbol. -/
theorem glidePart_seg_neg {ss : List Tok} (hs : ∀ t ∈ ss, t ∈ Symbols)
    (hng : ∀ g ∈ GLIDES, ss.head? ≠ some g) :
    glidePart ss.flatten = ([], ss.flatten) := by
  unfold glidePart
  cases ss with
  | nil => rfl
  | cons t1 rest =>
    have ht1 : t1 ∈ Symbols := hs t1 (by simp)
    have hne : t1 ≠ [] := Symbols_ne_nil t1 ht1
    obtain ⟨c, t1', rfl⟩ : ∃ c t1', t1 = c :: t1' := by
      cases t1 with
      | nil => exact absurd rfl hne
      | cons x xs => exact ⟨x, xs, rfl⟩
    have hfl : ((c :: t1') :: rest).flatten = c :: (t1' ++ rest.flatten) := by simp
    rw [hfl]
    have hnone : firstTok yToks [c] = none := by
      have hniy : (c :: t1') ∉ GLIDES := fun hmem => hng _ hmem rfl
      have : ∀ t ∈ Symbols, t ∉ GLIDES → firstTok yToks [t.headI] = none := by decide
      exact this (c :: t1') ht1 hniy
    rw [matchTok_single_neg ySingles hnone]

theorem glidePart_nil : glidePart [] = ([], []) := rfl

/-- Symbols never begin with the codepoint `n` or `g` except the single
symbols `n` and `g` themselves. -/
theorem n_single : ∀ t ∈ Symbols, t.headI = 'n' → t = ['n'] := by decide
theorem g_single : ∀ t ∈ Symbols, t.headI = 'g' → t = ['g'] := by decide
theorem s_single : ∀ t ∈ Symbols, t.headI = 's' → t = ['s'] := by decide
theorem t_single : ∀ t ∈ Symbols, t.headI = 't' → t = ['t'] ∨ t = ['t', 'ʃ'] := by
  decide
theorem d_single : ∀ t ∈ Symbols, t.headI = 'd' → t = ['d'] ∨ t = ['d', 'ʒ'] := by
  decide

theorem flatten_nil_of {ss : List Tok} (hs : ∀ t ∈ ss, t ∈ Symbols)
    (h : ss.flatten = []) : ss = [] := by
  cases ss with
  | nil => rfl
  | cons t1 rest =>
    have hne : t1 ≠ [] := Symbols_ne_nil t1 (hs t1 (by simp))
    cases ht : t1 with
    | nil => exact absurd ht hne
    | cons x xs =>
      subst ht
      simp at h

/-- The head codepoint of the flattening of a nonempty symbol sequence is
the head of its first symbol. -/
theorem flatten_cons_head {t1 : Tok} {rest : List Tok} {c : Char} {t1' : List Char}
    (h : t1 = c :: t1') : ((t1 :: rest).flatten) = c :: (t1' ++ rest.flatten) := by
  subst h; simp

theorem isPref_false_of {l s : List Char} (h : ¬ l <+: s) :
    l.isPrefixOf s = false := by
  cases hb : l.isPrefixOf s with
  | false => rfl
  | true => exact absurd (isPref_iff.mp hb) h

theorem ng_not_pref_head {c : Char} {f : List Char} (h : c ≠ 'n') :
    ¬ (['n', 'g'] : List Char) <+: c :: f := by
  intro hc
  exact h (List.cons_prefix_cons.mp hc).1.symm

theorem ng_not_pref_2 {f : List Char} (h : ∀ c2, f.head? = some c2 → c2 ≠ 'g') :
    ¬ (['n', 'g'] : List Char) <+: 'n' :: f := by
  intro hc
  have h2 := (List.cons_prefix_cons.mp hc).2
  cases f with
  | nil => simp [List.prefix_nil] at h2
  | cons c2 f' => exact h c2 rfl (List.cons_prefix_cons.mp h2).1.symm

theorem unitPart_ng (f : List Char) :
    unitPart ('n' :: 'g' :: f) = (['n', 'g'], f) := by
  unfold unitPart
  rw [if_pos (by simp [List.isPrefixOf])]
  simp

theorem liquid_head_ne_n : ∀ l ∈ LIQUIDS, l.headI ≠ 'n' := by decide

theorem matchL_pos {l : Tok} {f : List Char} (hl : l ∈ LIQUIDS) :
    matchTok lToks (l ++ f) = some (l, f) := by
  fin_cases hl <;>
    · simp only [List.cons_append, List.nil_append]
      rw [matchTok_single_pos lSingles (by decide)]

theorem matchLF_pos {lf : Tok} {f : List Char} (hlf : lf ∈ LIQUID_FRIENDLY) :
    matchTok lfToks (lf ++ f) = some (lf, f) := by
  fin_cases hlf <;>
    · simp only [List.cons_append, List.nil_append]
      rw [matchTok_single_pos lfSingles (by decide)]

theorem unitPart_LC {l lf : Tok} {f : List Char}
    (hl : l ∈ LIQUIDS) (hlf : lf ∈ LIQUID_FRIENDLY) :
    unitPart (l ++ (lf ++ f)) = (l ++ lf, f) := by
  have hng : ¬ (['n', 'g'] : List Char) <+: l ++ (lf ++ f) := by
    obtain ⟨c, l', rfl⟩ : ∃ c l', l = c :: l' := by
      fin_cases hl <;> exact ⟨_, _, rfl⟩
    exact ng_not_pref_head (by
      have := liquid_head_ne_n _ hl
      simpa using this)
  unfold unitPart
  rw [if_neg (by rw [isPref_false_of hng]; simp)]
  simp only [matchL_pos hl, matchLF_pos hlf]

theorem unitPart_LC_splitT {l : Tok} {f : List Char} (hl : l ∈ LIQUIDS) :
    unitPart (l ++ ('t' :: 'ʃ' :: f)) = (l ++ ['t'], 'ʃ' :: f) := by
  have h := @unitPart_LC l ['t'] ('ʃ' :: f) hl (by decide)
  simpa using h

theorem unitPart_LC_splitD {l : Tok} {f : List Char} (hl : l ∈ LIQUIDS) :
    unitPart (l ++ ('d' :: 'ʒ' :: f)) = (l ++ ['d'], 'ʒ' :: f) := by
  have h := @unitPart_LC l ['d'] ('ʒ' :: f) hl (by decide)
  simpa using h

theorem unitPart_L_noLF {l : Tok} {f : List Char} (hl : l ∈ LIQUIDS)
    (hlf : matchTok lfToks f = none)
    (hf : ∀ c2, f.head? = some c2 → c2 ∈ symFirst) :
    unitPart (l ++ f) = (l, f) := by
  have hng : ¬ (['n', 'g'] : List Char) <+: l ++ f := by
    obtain ⟨c, l', rfl⟩ : ∃ c l', l = c :: l' := by
      fin_cases hl <;> exact ⟨_, _, rfl⟩
    exact ng_not_pref_head (by
      have := liquid_head_ne_n _ hl
      simpa using this)
  have hC : matchTok cToks (l ++ f) = some (l, f) :=
    matchC_seg (by fin_cases hl <;> decide) (by fin_cases hl <;> decide) hf
  unfold unitPart
  rw [if_neg (by rw [isPref_false_of hng]; simp)]
  simp only [matchL_pos hl, hlf, hC]

theorem unitPart_C {t : Tok} {f : List Char} (ht : t ∈ CSyms)
    (htl : t ∉ LIQUIDS) (htd : ¬ (t = ['t'] ∨ t = ['d']))
    (hng : ¬ (['n', 'g'] : List Char) <+: t ++ f)
    (hf : ∀ c2, f.head? = some c2 → c2 ∈ symFirst) :
    unitPart (t ++ f) = (t, f) := by
  obtain ⟨c, t', rfl⟩ : ∃ c t', t = c :: t' := by
    have := Symbols_ne_nil t (CSyms_sub t ht)
    cases t with
    | nil => exact absurd rfl this
    | cons x xs => exact ⟨x, xs, rfl⟩
  have hL : matchTok lToks ((c :: t') ++ f) = none := by
    have hfact : ∀ t ∈ CSyms, t ∉ LIQUIDS → firstTok lToks [t.headI] = none := by
      decide
    have := hfact (c :: t') ht htl
    simp only [List.cons_append]
    exact matchTok_single_neg lSingles (by simpa using this)
  have hC : matchTok cToks ((c :: t') ++ f) = some (c :: t', f) :=
    matchC_seg ht htd hf
  unfold unitPart
  rw [if_neg (by rw [isPref_false_of hng]; simp)]
  simp only [hL, hC]

theorem unitPart_Ct {f : List Char}
    (hf : ∀ c2, f.head? = some c2 → c2 ∈ symFirst ∧ c2 ≠ 'ʃ') :
    unitPart ('t' :: f) = (['t'], f) := by
  have hng : ¬ (['n', 'g'] : List Char) <+: 't' :: f :=
    ng_not_pref_head (by decide)
  have hL : matchTok lToks ('t' :: f) = none :=
    matchTok_single_neg lSingles (by decide)
  have hC : matchTok cToks (['t'] ++ f) = some (['t'], f) := matchC_seg_t hf
  unfold unitPart
  rw [if_neg (by rw [isPref_false_of hng]; simp)]
  simp only [hL]
  simp only [List.cons_append, List.nil_append] at hC
  simp only [hC]

theorem unitPart_Cd {f : List Char}
    (hf : ∀ c2, f.head? = some c2 → c2 ∈ symFirst ∧ c2 ≠ 'ʒ') :
    unitPart ('d' :: f) = (['d'], f) := by
  have hng : ¬ (['n', 'g'] : List Char) <+: 'd' :: f :=
    ng_not_pref_head (by decide)
  have hL : matchTok lToks ('d' :: f) = none :=
    matchTok_single_neg lSingles (by decide)
  have hC : matchTok cToks (['d'] ++ f) = some (['d'], f) := matchC_seg_d hf
  unfold unitPart
  rw [if_neg (by rw [isPref_false_of hng]; simp)]
  simp only [hL]
  simp only [List.cons_append, List.nil_append] at hC
  simp only [hC]

theorem unitPart_vowel {v : Tok} {f : List Char} (hv : v ∈ VOWELS) :
    unitPart (v ++ f) = ([], v ++ f) := by
  obtain ⟨c, v', rfl⟩ : ∃ c v', v = c :: v' := by
    have := (VOWELS_head_not_c v hv).1
    cases v with
    | nil => exact absurd rfl this
    | cons x xs => exact ⟨x, xs, rfl⟩
  have hcv : c ∉ cChars := by
    have := (VOWELS_head_not_c (c :: v') hv).2
    simpa using this
  have hng : ¬ (['n', 'g'] : List Char) <+: (c :: v') ++ f := by
    apply ng_not_pref_head
    intro he
    exact hcv (by rw [he]; decide)
  have hL : matchTok lToks ((c :: v') ++ f) = none := by
    apply matchTok_single_neg lSingles
    have hfact : ∀ c ∈ vFirsts, firstTok lToks [c] = none := by decide
    apply hfact
    have := vToks_head
    have hvf : ∀ v ∈ VOWELS, v.headI ∈ vFirsts := by decide
    simpa using hvf (c :: v') hv
  have hC : matchTok cToks ((c :: v') ++ f) = none := matchC_head_none hcv
  unfold unitPart
  rw [if_neg (by rw [isPref_false_of hng]; simp)]
  simp only [hL, hC]

theorem unitPart_nil : unitPart [] = ([], []) := by decide

theorem sPart_nil : sPart [] = ([], []) := by decide

theorem sPart_s : sPart ['s'] = (['s'], []) := by decide

theorem sPart_ne {s : List Char} (h : s ≠ ['s']) : sPart s = ([], s) := by
  unfold sPart
  rw [if_neg h]

/-!
## Segment-level behaviour of the onset and the vowel count
-/

/-- Number of Vowel-symbol occurrences in a decomposition. -/
def countV (ss : List Tok) : Nat := ss.countP (fun t => decide (t ∈ VOWELS))

theorem countV_nil : countV [] = 0 := rfl

theorem countV_cons_not {t : Tok} {ss : List Tok} (h : t ∉ VOWELS) :
    countV (t :: ss) = countV ss := by
  simp [countV, List.countP_cons, h]

theorem countV_cons_v {t : Tok} {ss : List Tok} (h : t ∈ VOWELS) :
    countV (t :: ss) = countV ss + 1 := by
  simp [countV, List.countP_cons, h]

theorem countV_append (l1 l2 : List Tok) :
    countV (l1 ++ l2) = countV l1 + countV l2 := by
  simp [countV, List.countP_append]

theorem countV_reverse (l : List Tok) : countV l.reverse = countV l := by
  simp [countV]

theorem countV_csyms {l : List Tok} (h : ∀ t ∈ l, t ∈ CSyms) :
    countV l = 0 := by
  induction l with
  | nil => rfl
  | cons t rest ih =>
    rw [countV_cons_not (CSyms_not_vowel t (h t (by simp)))]
    exact ih (fun u hu => h u (by simp [hu]))

theorem flatten_singleton {ss : List Tok} {c : Char}
    (hs : ∀ t ∈ ss, t ∈ Symbols) (h : ss.flatten = [c]) : ss = [[c]] := by
  cases ss with
  | nil => simp at h
  | cons t1 rest =>
    have hne : t1 ≠ [] := Symbols_ne_nil t1 (hs t1 (by simp))
    obtain ⟨x, t1', rfl⟩ : ∃ x t1', t1 = x :: t1' := by
      cases t1 with
      | nil => exact absurd rfl hne
      | cons a b => exact ⟨a, b, rfl⟩
    simp only [List.flatten_cons, List.cons_append, List.cons.injEq] at h
    rcases h with ⟨rfl, h2⟩
    have h3 : t1' = [] ∧ rest.flatten = [] := by
      rcases List.append_eq_nil.mp h2 with ⟨ha, hb⟩
      exact ⟨ha, hb⟩
    have h4 : rest = [] := flatten_nil_of (fun t ht => hs t (by simp [ht])) h3.2
    rw [h3.1, h4]

theorem LIQ_not_vowel : ∀ t ∈ LIQUIDS, t ∉ VOWELS := by decide
theorem LF_not_vowel : ∀ t ∈ LIQUID_FRIENDLY, t ∉ VOWELS := by decide
theorem GLIDES_not_vowel : ∀ t ∈ GLIDES, t ∉ VOWELS := by decide

theorem glide_stage {ss : List Tok} (hs : ∀ t ∈ ss, t ∈ Symbols) :
    ∃ ss1, (glidePart ss.flatten).2 = ss1.flatten ∧
      (∀ t ∈ ss1, t ∈ Symbols) ∧ countV ss1 = countV ss := by
  cases ss with
  | nil => exact ⟨[], rfl, by simp, rfl⟩
  | cons t1 rest =>
    by_cases hg : t1 ∈ GLIDES
    · have he : (t1 :: rest).flatten = t1 ++ rest.flatten := by simp
      rw [he, glidePart_seg_pos hg]
      refine ⟨rest, rfl, fun t ht => hs t (by simp [ht]), ?_⟩
      rw [countV_cons_not (GLIDES_not_vowel t1 hg)]
    · rw [glidePart_seg_neg hs ?_]
      · exact ⟨t1 :: rest, rfl, hs, rfl⟩
      · intro g hgm he
        simp at he
        subst he
        exact hg hgm

theorem lf_none_seg {ss : List Tok} (hs : ∀ t ∈ ss, t ∈ Symbols)
    (hc : ∀ t2, ss.head? = some t2 →
      t2 ∉ LIQUID_FRIENDLY ∧ t2 ≠ ['t', 'ʃ'] ∧ t2 ≠ ['d', 'ʒ']) :
    matchTok lfToks ss.flatten = none := by
  cases ss with
  | nil => decide
  | cons t2 rest =>
    have ht2 : t2 ∈ Symbols := hs t2 (by simp)
    obtain ⟨c, t2', rfl⟩ : ∃ c t2', t2 = c :: t2' := by
      have := Symbols_ne_nil t2 ht2
      cases t2 with
      | nil => exact absurd rfl this
      | cons a b => exact ⟨a, b, rfl⟩
    rcases hc (c :: t2') rfl with ⟨h1, h2, h3⟩
    have hfact : ∀ t ∈ Symbols, t ∉ LIQUID_FRIENDLY → t ≠ ['t', 'ʃ'] →
        t ≠ ['d', 'ʒ'] → firstTok lfToks [t.headI] = none := by decide
    have := hfact (c :: t2') ht2 h1 h2 h3
    rw [flatten_cons_head rfl]
    exact matchTok_single_neg lfSingles (by simpa using this)

theorem unit_stage {ss : List Tok} (hs : ∀ t ∈ ss, t ∈ Symbols) :
    ∃ pre2 ss2, (unitPart ss.flatten).2 = pre2 ++ ss2.flatten ∧
      (pre2 = [] ∨ pre2 = ['ʃ'] ∨ pre2 = ['ʒ']) ∧
      (∀ t ∈ ss2, t ∈ Symbols) ∧ countV ss2 = countV ss := by
  cases ss with
  | nil =>
    exact ⟨[], [], rfl, Or.inl rfl, by simp, rfl⟩
  | cons t1 rest =>
    have ht1 : t1 ∈ Symbols := hs t1 (by simp)
    have hrest : ∀ t ∈ rest, t ∈ Symbols := fun t ht => hs t (by simp [ht])
    rcases Symbols_split t1 ht1 with hc1 | hv1
    swap
    · -- vowel head: the unit consumes nothing
      have he : (t1 :: rest).flatten = t1 ++ rest.flatten := by simp
      rw [he, unitPart_vowel hv1]
      exact ⟨[], t1 :: rest, by simp, Or.inl rfl, hs, rfl⟩
    · by_cases hng : t1 = ['n'] ∧ rest.head? = some ['g']
      · -- the literal `ng`
        obtain ⟨rfl, hg⟩ := hng
        obtain ⟨rest2, rfl⟩ : ∃ rest2, rest = ['g'] :: rest2 := by
          cases rest with
          | nil => simp at hg
          | cons x rest2 =>
            simp at hg
            exact ⟨rest2, by rw [hg]⟩
        have he : ((['n'] : Tok) :: ['g'] :: rest2).flatten
            = 'n' :: 'g' :: rest2.flatten := by simp
        rw [he, unitPart_ng]
        refine ⟨[], rest2, by simp, Or.inl rfl,
          fun t ht => hs t (by simp [ht]), ?_⟩
        rw [countV_cons_not (by decide), countV_cons_not (by decide)]
      · by_cases hl : t1 ∈ LIQUIDS
        · -- a liquid: try the liquid-friendly continuation
          cases hrest2 : rest with
          | nil =>
            have he : ([t1] : List Tok).flatten = t1 ++ ([] : List Char) := by
              simp
            rw [he, unitPart_L_noLF hl (by decide) (by simp)]
            refine ⟨[], [], by simp, Or.inl rfl, by simp, ?_⟩
            rw [countV_cons_not (LIQ_not_vowel _ hl)]
          | cons t2 rest2 =>
            subst hrest2
            have ht2 : t2 ∈ Symbols := hs t2 (by simp)
            have hrest2s : ∀ t ∈ rest2, t ∈ Symbols :=
              fun t ht => hs t (by simp [ht])
            by_cases hlf : t2 ∈ LIQUID_FRIENDLY
            · have he : (t1 :: t2 :: rest2).flatten
                  = t1 ++ (t2 ++ rest2.flatten) := by simp
              rw [he, unitPart_LC hl hlf]
              refine ⟨[], rest2, rfl, Or.inl rfl, hrest2s, ?_⟩
              rw [countV_cons_not (LIQ_not_vowel _ hl),
                countV_cons_not (LF_not_vowel _ hlf)]
            · by_cases htsh : t2 = ['t', 'ʃ']
              · subst htsh
                have he : (t1 :: ['t', 'ʃ'] :: rest2).flatten
                    = t1 ++ ('t' :: 'ʃ' :: rest2.flatten) := by simp
                rw [he, unitPart_LC_splitT hl]
                refine ⟨['ʃ'], rest2, rfl, Or.inr (Or.inl rfl), hrest2s, ?_⟩
                rw [countV_cons_not (LIQ_not_vowel _ hl),
                  countV_cons_not (by decide)]
              · by_cases hdzh : t2 = ['d', 'ʒ']
                · subst hdzh
                  have he : (t1 :: ['d', 'ʒ'] :: rest2).flatten
                      = t1 ++ ('d' :: 'ʒ' :: rest2.flatten) := by simp
                  rw [he, unitPart_LC_splitD hl]
                  refine ⟨['ʒ'], rest2, rfl, Or.inr (Or.inr rfl), hrest2s, ?_⟩
                  rw [countV_cons_not (LIQ_not_vowel _ hl),
                    countV_cons_not (by decide)]
                · have hnone : matchTok lfToks ((t2 :: rest2).flatten) = none :=
                    lf_none_seg (fun t ht => hs t (by simp [ht]))
                      (fun u hu => by
                        simp at hu
                        subst hu
                        exact ⟨hlf, htsh, hdzh⟩)
                  have he : (t1 :: t2 :: rest2).flatten
                      = t1 ++ (t2 :: rest2).flatten := by simp
                  rw [he, unitPart_L_noLF hl hnone
                    (flatten_headS (fun t ht => hs t (by simp [ht])))]
                  refine ⟨[], t2 :: rest2, rfl, Or.inl rfl,
                    fun t ht => hs t (by simp [ht]), ?_⟩
                  rw [countV_cons_not (LIQ_not_vowel _ hl)]
        · -- a plain consonant-class symbol
          by_cases htt : t1 = ['t']
          · subst htt
            by_cases hsh : rest.head? = some ['ʃ']
            · obtain ⟨rest2, rfl⟩ : ∃ rest2, rest = ['ʃ'] :: rest2 := by
                cases rest with
                | nil => simp at hsh
                | cons x rest2 =>
                  simp at hsh
                  exact ⟨rest2, by rw [hsh]⟩
              have hrest2s : ∀ t ∈ rest2, t ∈ Symbols :=
                fun t ht => hs t (by simp [ht])
              have he : ((['t'] : Tok) :: ['ʃ'] :: rest2).flatten
                  = ['t', 'ʃ'] ++ rest2.flatten := by simp
              rw [he, unitPart_C (by decide) (by decide) (by decide)
                (ng_not_pref_head (by decide)) (flatten_headS hrest2s)]
              refine ⟨[], rest2, rfl, Or.inl rfl, hrest2s, ?_⟩
              rw [countV_cons_not (by decide), countV_cons_not (by decide)]
            · have hf : ∀ c2, rest.flatten.head? = some c2 →
                  c2 ∈ symFirst ∧ c2 ≠ 'ʃ' := by
                intro c2 h
                refine ⟨flatten_headS hrest c2 h, ?_⟩
                intro he2
                subst he2
                rcases flatten_headI hrest h with ⟨u, rest2, rfl, hhead⟩
                have := sh_single u (hrest u (by simp)) hhead
                exact hsh (by rw [this]; rfl)
              have he : ((['t'] : Tok) :: rest).flatten
                  = 't' :: rest.flatten := by simp
              rw [he, unitPart_Ct hf]
              exact ⟨[], rest, rfl, Or.inl rfl, hrest,
                by rw [countV_cons_not (by decide)]⟩
          · by_cases htd : t1 = ['d']
            · subst htd
              by_cases hzh : rest.head? = some ['ʒ']
              · obtain ⟨rest2, rfl⟩ : ∃ rest2, rest = ['ʒ'] :: rest2 := by
                  cases rest with
                  | nil => simp at hzh
                  | cons x rest2 =>
                    simp at hzh
                    exact ⟨rest2, by rw [hzh]⟩
                have hrest2s : ∀ t ∈ rest2, t ∈ Symbols :=
                  fun t ht => hs t (by simp [ht])
                have he : ((['d'] : Tok) :: ['ʒ'] :: rest2).flatten
                    = ['d', 'ʒ'] ++ rest2.flatten := by simp
                rw [he, unitPart_C (by decide) (by decide) (by decide)
                  (ng_not_pref_head (by decide)) (flatten_headS hrest2s)]
                refine ⟨[], rest2, rfl, Or.inl rfl, hrest2s, ?_⟩
                rw [countV_cons_not (by decide), countV_cons_not (by decide)]
              · have hf : ∀ c2, rest.flatten.head? = some c2 →
                    c2 ∈ symFirst ∧ c2 ≠ 'ʒ' := by
                  intro c2 h
                  refine ⟨flatten_headS hrest c2 h, ?_⟩
                  intro he2
                  subst he2
                  rcases flatten_headI hrest h with ⟨u, rest2, rfl, hhead⟩
                  have := zh_single u (hrest u (by simp)) hhead
                  exact hzh (by rw [this]; rfl)
                have he : ((['d'] : Tok) :: rest).flatten
                    = 'd' :: rest.flatten := by simp
                rw [he, unitPart_Cd hf]
                exact ⟨[], rest, rfl, Or.inl rfl, hrest,
                  by rw [countV_cons_not (by decide)]⟩
            · -- a consonant-class symbol other than t, d, liquid
              have hngp : ¬ (['n', 'g'] : List Char) <+: t1 ++ rest.flatten := by
                by_cases hn : t1 = ['n']
                · subst hn
                  apply ng_not_pref_2
                  intro c2 h he2
                  subst he2
                  rcases flatten_headI hrest h with ⟨u, rest2, rfl, hhead⟩
                  have := g_single u (hrest u (by simp)) hhead
                  exact hng ⟨rfl, by rw [this]; rfl⟩
                · obtain ⟨c, t1', rfl⟩ : ∃ c t1', t1 = c :: t1' := by
                    have := Symbols_ne_nil t1 ht1
                    cases t1 with
                    | nil => exact absurd rfl this
                    | cons a b => exact ⟨a, b, rfl⟩
                  apply ng_not_pref_head
                  intro he2
                  subst he2
                  exact hn (n_single _ ht1 rfl)
              have he : (t1 :: rest).flatten = t1 ++ rest.flatten := by simp
              rw [he, unitPart_C hc1 hl (by
                  rintro (h | h)
                  · exact htt h
                  · exact htd h) hngp (flatten_headS hrest)]
              refine ⟨[], rest, rfl, Or.inl rfl, hrest, ?_⟩
              rw [countV_cons_not (CSyms_not_vowel t1 hc1)]

theorem sPart_stage {pre2 : List Char} {ss2 : List Tok}
    (hs : ∀ t ∈ ss2, t ∈ Symbols)
    (hpre : pre2 = [] ∨ pre2 = ['ʃ'] ∨ pre2 = ['ʒ']) :
    ∃ pre3 ss3, (sPart (pre2 ++ ss2.flatten)).2 = pre3 ++ ss3.flatten ∧
      (pre3 = [] ∨ pre3 = ['ʃ'] ∨ pre3 = ['ʒ']) ∧
      (∀ t ∈ ss3, t ∈ Symbols) ∧ countV ss3 = countV ss2 := by
  by_cases he : pre2 ++ ss2.flatten = ['s']
  · rw [he, sPart_s]
    refine ⟨[], [], by simp, Or.inl rfl, by simp, ?_⟩
    rcases hpre with rfl | rfl | rfl
    · simp only [List.nil_append] at he
      rw [flatten_singleton hs he]
      decide
    · rw [List.cons_append] at he
      cases he
    · rw [List.cons_append] at he
      cases he
  · rw [sPart_ne he]
    exact ⟨pre2, ss2, rfl, hpre, hs, rfl⟩

/-- The whole onset (glide, cluster, extrasyllabic `s`) of one match. -/
def onsetRun (s : List Char) : List Char × List Char :=
  ((glidePart s).1 ++ (unitPart (glidePart s).2).1
    ++ (sPart (unitPart (glidePart s).2).2).1,
   (sPart (unitPart (glidePart s).2).2).2)

theorem gMatch_onsetRun (s : List Char) :
    gMatch s =
      match matchTok vToks (s.dropWhile isC) with
      | none => none
      | some (nuc, r2) =>
        some (⟨(onsetRun r2).1, nuc, s.takeWhile isC⟩, (onsetRun r2).2) := rfl

/-- After matching the nucleus, the onset leaves a remainder that is
again (up to a possible split affricate codepoint) a symbol sequence
with the same vowel occurrences. -/
theorem onsetRun_seg {ss : List Tok} (hs : ∀ t ∈ ss, t ∈ Symbols) :
    ∃ pre3 ss3, (onsetRun ss.flatten).2 = pre3 ++ ss3.flatten ∧
      (pre3 = [] ∨ pre3 = ['ʃ'] ∨ pre3 = ['ʒ']) ∧
      (∀ t ∈ ss3, t ∈ Symbols) ∧ countV ss3 = countV ss := by
  obtain ⟨ss1, h1, hs1, hc1⟩ := glide_stage hs
  obtain ⟨pre2, ss2, h2, hp2, hs2, hc2⟩ := unit_stage hs1
  unfold onsetRun
  rw [h1, h2]
  obtain ⟨pre3, ss3, h3, hp3, hs3, hc3⟩ := sPart_stage hs2 hp2
  rw [h3]
  exact ⟨pre3, ss3, rfl, hp3, hs3, by rw [hc3, hc2, hc1]⟩

/-- The greedy coda of one attempt consumes exactly the pending split
codepoint and the leading consonant-class symbols, stopping at the first
vowel symbol. -/
theorem takeWhile_state {pre : List Char} {css : List Tok} {v : Tok}
    {rest : List Char}
    (hpre : ∀ c ∈ pre, c ∈ cChars) (hcss : ∀ t ∈ css, t ∈ CSyms)
    (hv : v ∈ VOWELS) :
    (pre ++ (css.flatten ++ (v ++ rest))).takeWhile isC = pre ++ css.flatten ∧
    (pre ++ (css.flatten ++ (v ++ rest))).dropWhile isC = v ++ rest := by
  have hall : ∀ a ∈ pre ++ css.flatten, isC a = true := by
    intro a ha
    simp only [isC, decide_eq_true_eq]
    rcases List.mem_append.mp ha with ha | ha
    · exact hpre a ha
    · rcases List.mem_flatten.mp ha with ⟨t, ht, hat⟩
      exact CSyms_chars t (hcss t ht) a hat
  obtain ⟨c, v', rfl⟩ : ∃ c v', v = c :: v' := by
    have := (VOWELS_head_not_c v hv).1
    cases v with
    | nil => exact absurd rfl this
    | cons a b => exact ⟨a, b, rfl⟩
  have hcv : isC c = false := by
    have := (VOWELS_head_not_c (c :: v') hv).2
    simp only [isC, decide_eq_false_iff_not]
    simpa using this
  have heq : pre ++ (css.flatten ++ ((c :: v') ++ rest))
      = (pre ++ css.flatten) ++ (c :: (v' ++ rest)) := by
    simp [List.append_assoc]
  rw [heq]
  have h := takeWhile_all_append (pre ++ css.flatten) (c :: (v' ++ rest)) hall
  constructor
  · rw [h.1, List.takeWhile_cons_of_neg (by simp [hcv])]
    simp
  · rw [h.2, List.dropWhile_cons_of_neg (by simp [hcv])]
    simp
theorem dropWhile_head_false {p : Tok → Bool} :
    ∀ {l : List Tok} {b : Tok} {l' : List Tok}, l.dropWhile p = b :: l' →
      p b = false := by
  intro l
  induction l with
  | nil => intro b l' h; cases h
  | cons a l ih =>
    intro b l' h
    rw [List.dropWhile_cons] at h
    by_cases ha : p a = true
    · rw [if_pos ha] at h
      exact ih h
    · rw [if_neg ha] at h
      cases h
      exact Bool.eq_false_iff.mpr ha

theorem matchSyllAt_nil : matchSyllAt [] = none := by decide

theorem scan_count :
    ∀ n (s pre : List Char) (ss : List Tok),
      s.length = n → s = pre ++ ss.flatten →
      (∀ t ∈ ss, t ∈ Symbols) →
      (pre = [] ∨ pre = ['ʃ'] ∨ pre = ['ʒ']) →
      (scanMatches s).length = countV ss := by
  intro n
  induction n using Nat.strong_induction_on with
  | _ n ih =>
    intro s pre ss hn hse hs hpre
    have hP : ∀ t ∈ ss.takeWhile (fun t => decide (t ∉ VOWELS)), t ∈ CSyms := by
      intro t ht
      have h1 : t ∈ ss := (List.takeWhile_sublist _).subset ht
      have h2 := List.mem_takeWhile_imp ht
      simp only [decide_eq_true_eq] at h2
      rcases Symbols_split t (hs t h1) with h | h
      · exact h
      · exact absurd h h2
    have hsplit : ss = ss.takeWhile (fun t => decide (t ∉ VOWELS))
        ++ ss.dropWhile (fun t => decide (t ∉ VOWELS)) :=
      (List.takeWhile_append_dropWhile _ ss).symm
    have hprec : ∀ c ∈ pre, c ∈ cChars := by
      rcases hpre with rfl | rfl | rfl
      · simp
      · intro c hc; simp at hc; subst hc; decide
      · intro c hc; simp at hc; subst hc; decide
    cases hrest : ss.dropWhile (fun t => decide (t ∉ VOWELS)) with
    | nil =>
      have hcssall : ss = ss.takeWhile (fun t => decide (t ∉ VOWELS)) := by
        conv_lhs => rw [hsplit]
        rw [hrest, List.append_nil]
      have hcnt : countV ss = 0 := by
        conv_lhs => rw [hcssall]
        exact countV_csyms hP
      rw [hcnt]
      have hnoV : ∀ c ∈ s, c ∉ vFirsts := by
        intro c hc
        rw [hse] at hc
        rcases List.mem_append.mp hc with hc | hc
        · exact cChars_not_vFirsts c (hprec c hc)
        · rcases List.mem_flatten.mp hc with ⟨t, ht, hct⟩
          have htc : t ∈ CSyms := by
            rw [hcssall] at ht
            exact hP t ht
          exact cChars_not_vFirsts c (CSyms_chars t htc c hct)
      rw [scanMatches_nil_of_noV s.length s rfl hnoV]
      rfl
    | cons v ss2 =>
      have hvmem : v ∈ ss := (List.dropWhile_sublist _).subset (by
        rw [hrest]; simp)
      have hvV : v ∈ VOWELS := by
        have hb := dropWhile_head_false hrest
        simp only [decide_eq_false_iff_not, not_not] at hb
        exact hb
      have hss2 : ∀ t ∈ ss2, t ∈ Symbols := by
        intro t ht
        have hmem : t ∈ ss.dropWhile (fun t => decide (t ∉ VOWELS)) := by
          rw [hrest]; simp [ht]
        exact hs t ((List.dropWhile_sublist _).subset hmem)
      have hseq : s = pre ++ ((ss.takeWhile (fun t => decide (t ∉ VOWELS))).flatten
          ++ (v ++ ss2.flatten)) := by
        rw [hse]
        conv_lhs => rw [hsplit]
        rw [hrest, List.flatten_append]
        simp [List.append_assoc]
      have htw := @takeWhile_state pre (ss.takeWhile (fun t => decide (t ∉ VOWELS)))
        v ss2.flatten hprec hP hvV
      have hvm : matchTok vToks (v ++ ss2.flatten) = some (v, ss2.flatten) :=
        matchV_seg hvV (flatten_headS hss2)
      have hms : matchSyllAt s = some
          (⟨(onsetRun ss2.flatten).1, v,
            pre ++ (ss.takeWhile (fun t => decide (t ∉ VOWELS))).flatten⟩,
           (onsetRun ss2.flatten).2) := by
        rw [matchSyllAt_eq_g, gMatch_onsetRun]
        rw [hseq, htw.2, htw.1, hvm]
      obtain ⟨pre3, ss3, h3, hp3, hs3, hc3⟩ := onsetRun_seg hss2
      cases s with
      | nil =>
        rw [matchSyllAt_nil] at hms
        cases hms
      | cons c0 s' =>
        rw [scanMatches_cons, hms]
        have hlt : (onsetRun ss2.flatten).2.length < (c0 :: s').length :=
          matchSyllAt_lt hms
        have hih := ih (onsetRun ss2.flatten).2.length
          (by subst hn; exact hlt) (onsetRun ss2.flatten).2 pre3 ss3
          rfl h3 hs3 hp3
        simp only [List.length_cons]
        rw [hih, hc3]
        conv_rhs => rw [hsplit]
        rw [hrest, countV_append, countV_csyms hP, countV_cons_v hvV]
        omega

theorem norm_countV_aux : ∀ n (ts : List Tok), ts.length = n →
    countV (norm ts) = countV ts := by
  intro n
  induction n using Nat.strong_induction_on with
  | _ n ih =>
    intro ts hn
    match ts with
    | [] => rfl
    | [a] => rw [norm]
    | a :: b :: rest =>
      subst hn
      by_cases h1 : a = ['t'] ∧ b = ['ʃ']
      · rw [norm, if_pos h1, h1.1, h1.2]
        rw [countV_cons_not (by decide), countV_cons_not (by decide),
          countV_cons_not (by decide)]
        exact ih rest.length (by simp only [List.length_cons]; omega) rest rfl
      · by_cases h2 : a = ['d'] ∧ b = ['ʒ']
        · rw [norm, if_neg h1, if_pos h2, h2.1, h2.2]
          rw [countV_cons_not (by decide), countV_cons_not (by decide),
            countV_cons_not (by decide)]
          exact ih rest.length (by simp only [List.length_cons]; omega) rest rfl
        · rw [norm, if_neg h1, if_neg h2]
          have hih := ih (b :: rest).length
            (by simp only [List.length_cons]; omega) (b :: rest) rfl
          simp only [countV, List.countP_cons] at hih ⊢
          omega

theorem norm_countV (ts : List Tok) : countV (norm ts) = countV ts :=
  norm_countV_aux ts.length ts rfl

/-- C8: for every well-formed input word — the flattening of a sequence
of inventory symbols containing at least one Vowel-category symbol — the
number of syllables produced by `syllabify` equals the number of
Vowel-symbol occurrences in that sequence: each match consumes exactly
one vowel as its nucleus, and onsets and codas consume only
consonant-class material. -/
theorem C8_syllable_count (ts : List Tok)
    (hs : ∀ t ∈ ts, t ∈ Symbols) (hv : ∃ t ∈ ts, t ∈ VOWELS) :
    (syllabify ts.flatten).length = countV ts := by
  have hns : ∀ t ∈ norm ts, t ∈ Symbols := norm_symbols hs
  have hmf : mirrored (norm ts).flatten = (norm ts).reverse.flatten :=
    mirrored_flatten hns (norm_no_t_sh ts) (norm_no_d_zh ts)
  have hrs : ∀ t ∈ (norm ts).reverse, t ∈ Symbols := by
    intro t ht
    exact hns t (List.mem_reverse.mp ht)
  have hscan : (scanMatches (mirrored ts.flatten)).length
      = countV ((norm ts).reverse) := by
    rw [← norm_flatten ts, hmf]
    exact scan_count ((norm ts).reverse.flatten).length _ [] _ rfl
      (by simp) hrs (Or.inl rfl)
  unfold syllabify
  rw [List.length_reverse, List.length_map, hscan, countV_reverse, norm_countV]

theorem C8_syllable_count_witness :
    (syllabify (List.flatten [['p'], ['a']])).length = countV [['p'], ['a']] :=
  C8_syllable_count [['p'], ['a']] (by decide) ⟨['a'], by decide, by decide⟩

/-!
## Exact decomposition of the matches (round-trip analysis)
-/

theorem hasAdj_mono_left {a b : Tok} {x y : List Tok}
    (h : hasAdj a b x) : hasAdj a b (x ++ y) := by
  rcases hasAdj_iff.mp h with ⟨l1, l2, rfl⟩
  exact hasAdj_iff.mpr ⟨l1, l2 ++ y, by simp⟩

theorem hasAdj_mono_right {a b : Tok} {x y : List Tok}
    (h : hasAdj a b y) : hasAdj a b (x ++ y) := by
  rcases hasAdj_iff.mp h with ⟨l1, l2, rfl⟩
  exact hasAdj_iff.mpr ⟨x ++ l1, l2, by simp⟩

theorem takeWhile_all {q : Tok → Bool} :
    ∀ {a b : List Tok}, (∀ x ∈ a, q x = true) →
      (a ++ b).takeWhile q = a ++ b.takeWhile q := by
  intro a
  induction a with
  | nil => intro b _; simp
  | cons x a ih =>
    intro b h
    rw [List.cons_append, List.takeWhile_cons_of_pos (h x (by simp)),
      ih (fun u hu => h u (by simp [hu])), List.cons_append]

theorem takeWhile_stop {q : Tok → Bool} :
    ∀ {a b : List Tok}, (∃ x ∈ a, q x = false) →
      (a ++ b).takeWhile q = a.takeWhile q := by
  intro a
  induction a with
  | nil =>
    rintro b ⟨x, hx, _⟩
    cases hx
  | cons y a ih =>
    rintro b ⟨x, hx, hqx⟩
    cases hqy : q y with
    | false =>
      rw [List.cons_append, List.takeWhile_cons_of_neg (by simp [hqy]),
        List.takeWhile_cons_of_neg (by simp [hqy])]
    | true =>
      have hxa : x ∈ a := by
        rcases List.mem_cons.mp hx with rfl | hxa
        · rw [hqy] at hqx; cases hqx
        · exact hxa
      rw [List.cons_append, List.takeWhile_cons_of_pos hqy,
        List.takeWhile_cons_of_pos hqy, ih ⟨x, hxa, hqx⟩]

theorem countV_zero_iff {l : List Tok} :
    countV l = 0 ↔ ∀ t ∈ l, t ∉ VOWELS := by
  unfold countV
  rw [List.countP_eq_zero]
  constructor
  · intro h t ht hv
    exact h t ht (by simp [hv])
  · intro h t ht
    simp [h t ht]

theorem countV_pos_iff {l : List Tok} :
    0 < countV l ↔ ∃ t ∈ l, t ∈ VOWELS := by
  unfold countV
  rw [List.countP_pos]
  constructor
  · rintro ⟨t, ht, hq⟩
    exact ⟨t, ht, by simpa using hq⟩
  · rintro ⟨t, ht, hv⟩
    exact ⟨t, ht, by simp [hv]⟩

/-- The maximal vowel-free suffix of a symbol sequence. -/
def tailC (ss : List Tok) : List Tok :=
  (ss.reverse.takeWhile (fun t => decide (t ∉ VOWELS))).reverse

theorem tailC_append_pos {a b : List Tok} (h : 0 < countV b) :
    tailC (a ++ b) = tailC b := by
  unfold tailC
  rw [List.reverse_append]
  rcases countV_pos_iff.mp h with ⟨t, ht, hv⟩
  rw [takeWhile_stop ⟨t, by simp [ht], by simp [hv]⟩]

theorem tailC_eq_of_noV {css ss2 : List Tok} {v : Tok}
    (hns : ∀ t ∈ ss2, t ∉ VOWELS) (hv : v ∈ VOWELS) :
    tailC (css ++ v :: ss2) = ss2 := by
  unfold tailC
  have he : (css ++ v :: ss2).reverse = ss2.reverse ++ v :: css.reverse := by
    simp
  rw [he, takeWhile_all (fun u hu => by
      simp only [decide_eq_true_eq]
      exact hns u (List.mem_reverse.mp hu)),
    List.takeWhile_cons_of_neg (by simp [hv]), List.append_nil,
    List.reverse_reverse]

theorem glide_exact {ss : List Tok} (hs : ∀ t ∈ ss, t ∈ Symbols) :
    ∃ gs rest, glidePart ss.flatten = (gs.flatten, rest.flatten) ∧
      ss = gs ++ rest ∧ countV rest = countV ss := by
  cases ss with
  | nil => exact ⟨[], [], rfl, rfl, rfl⟩
  | cons t1 rest =>
    by_cases hg : t1 ∈ GLIDES
    · refine ⟨[t1], rest, ?_, rfl, ?_⟩
      · have he : (t1 :: rest).flatten = t1 ++ rest.flatten := by simp
        rw [he, glidePart_seg_pos hg]
        simp
      · rw [countV_cons_not (GLIDES_not_vowel t1 hg)]
    · refine ⟨[], t1 :: rest, ?_, rfl, rfl⟩
      rw [glidePart_seg_neg hs (fun g hgm he => by
        simp at he
        subst he
        exact hg hgm)]
      simp

theorem sPart_exact {ss : List Tok} (hs : ∀ t ∈ ss, t ∈ Symbols)
    (hv : 0 < countV ss) : sPart ss.flatten = ([], ss.flatten) := by
  apply sPart_ne
  intro he
  rcases countV_pos_iff.mp hv with ⟨t, ht, htv⟩
  have hsub : List.Sublist t ss.flatten := List.sublist_flatten_of_mem ht
  rw [he] at hsub
  have hne : t ≠ [] := Symbols_ne_nil t (hs t ht)
  have hts : t = ['s'] := by
    cases t with
    | nil => exact absurd rfl hne
    | cons a t' =>
      have hlen : (a :: t').length ≤ 1 := hsub.length_le
      have ht' : t' = [] := by
        cases t' with
        | nil => rfl
        | cons b t'' => simp at hlen
      subst ht'
      have ha : a ∈ (['s'] : List Char) := hsub.subset (by simp)
      simp at ha
      rw [ha]
  rw [hts] at htv
  exact absurd htv (by decide)

theorem unit_exact {ss : List Tok} (hs : ∀ t ∈ ss, t ∈ Symbols)
    (h1 : ¬ hasAdj ['t'] ['ʃ'] ss) (h2 : ¬ hasAdj ['d'] ['ʒ'] ss)
    (ha1 : ¬ hasAdj ['ʁ'] ['t', 'ʃ'] ss) (ha2 : ¬ hasAdj ['l'] ['t', 'ʃ'] ss)
    (ha3 : ¬ hasAdj ['ʁ'] ['d', 'ʒ'] ss) (ha4 : ¬ hasAdj ['l'] ['d', 'ʒ'] ss) :
    ∃ us rest, unitPart ss.flatten = (us.flatten, rest.flatten) ∧
      ss = us ++ rest ∧ countV rest = countV ss := by
  cases ss with
  | nil => exact ⟨[], [], unitPart_nil, rfl, rfl⟩
  | cons t1 rest =>
    have ht1 : t1 ∈ Symbols := hs t1 (by simp)
    have hrest : ∀ t ∈ rest, t ∈ Symbols := fun t ht => hs t (by simp [ht])
    rcases Symbols_split t1 ht1 with hc1 | hv1
    swap
    · refine ⟨[], t1 :: rest, ?_, rfl, rfl⟩
      have he : (t1 :: rest).flatten = t1 ++ rest.flatten := by simp
      rw [he, unitPart_vowel hv1]
      simp
    · by_cases hng : t1 = ['n'] ∧ rest.head? = some ['g']
      · obtain ⟨rfl, hg⟩ := hng
        obtain ⟨rest2, rfl⟩ : ∃ rest2, rest = ['g'] :: rest2 := by
          cases rest with
          | nil => simp at hg
          | cons x rest2 =>
            simp at hg
            exact ⟨rest2, by rw [hg]⟩
        refine ⟨[['n'], ['g']], rest2, ?_, rfl, ?_⟩
        · have he : ((['n'] : Tok) :: ['g'] :: rest2).flatten
              = 'n' :: 'g' :: rest2.flatten := by simp
          rw [he, unitPart_ng]
          simp
        · rw [countV_cons_not (by decide), countV_cons_not (by decide)]
      · by_cases hl : t1 ∈ LIQUIDS
        · cases hrest2 : rest with
          | nil =>
            refine ⟨[t1], [], ?_, by simp, ?_⟩
            · have he : ([t1] : List Tok).flatten = t1 ++ ([] : List Char) := by
                simp
              rw [he, unitPart_L_noLF hl (by decide) (by simp)]
              simp
            · rw [countV_cons_not (LIQ_not_vowel _ hl)]
          | cons t2 rest2 =>
            subst hrest2
            have ht2 : t2 ∈ Symbols := hs t2 (by simp)
            have hrest2s : ∀ t ∈ rest2, t ∈ Symbols :=
              fun t ht => hs t (by simp [ht])
            by_cases hlf : t2 ∈ LIQUID_FRIENDLY
            · refine ⟨[t1, t2], rest2, ?_, rfl, ?_⟩
              · have he : (t1 :: t2 :: rest2).flatten
                    = t1 ++ (t2 ++ rest2.flatten) := by simp
                rw [he, unitPart_LC hl hlf]
                simp
              · rw [countV_cons_not (LIQ_not_vowel _ hl),
                  countV_cons_not (LF_not_vowel _ hlf)]
            · by_cases htsh : t2 = ['t', 'ʃ']
              · subst htsh
                have hlc : t1 = ['ʁ'] ∨ t1 = ['l'] := by
                  simpa [LIQUIDS] using hl
                rcases hlc with rfl | rfl
                · exact absurd (hasAdj_cons₂.mpr (Or.inl ⟨rfl, rfl⟩)) ha1
                · exact absurd (hasAdj_cons₂.mpr (Or.inl ⟨rfl, rfl⟩)) ha2
              · by_cases hdzh : t2 = ['d', 'ʒ']
                · subst hdzh
                  have hlc : t1 = ['ʁ'] ∨ t1 = ['l'] := by
                    simpa [LIQUIDS] using hl
                  rcases hlc with rfl | rfl
                  · exact absurd (hasAdj_cons₂.mpr (Or.inl ⟨rfl, rfl⟩)) ha3
                  · exact absurd (hasAdj_cons₂.mpr (Or.inl ⟨rfl, rfl⟩)) ha4
                · have hnone : matchTok lfToks ((t2 :: rest2).flatten) = none :=
                    lf_none_seg (fun t ht => hs t (by simp [ht]))
                      (fun u hu => by
                        simp at hu
                        subst hu
                        exact ⟨hlf, htsh, hdzh⟩)
                  refine ⟨[t1], t2 :: rest2, ?_, rfl, ?_⟩
                  · have he : (t1 :: t2 :: rest2).flatten
                        = t1 ++ (t2 :: rest2).flatten := by simp
                    rw [he, unitPart_L_noLF hl hnone
                      (flatten_headS (fun t ht => hs t (by simp [ht])))]
                    simp
                  · rw [countV_cons_not (LIQ_not_vowel _ hl)]
        · by_cases htt : t1 = ['t']
          · subst htt
            by_cases hsh : rest.head? = some ['ʃ']
            · obtain ⟨rest2, rfl⟩ : ∃ rest2, rest = ['ʃ'] :: rest2 := by
                cases rest with
                | nil => simp at hsh
                | cons x rest2 =>
                  simp at hsh
                  exact ⟨rest2, by rw [hsh]⟩
              exact absurd (hasAdj_cons₂.mpr (Or.inl ⟨rfl, rfl⟩)) h1
            · have hf : ∀ c2, rest.flatten.head? = some c2 →
                  c2 ∈ symFirst ∧ c2 ≠ 'ʃ' := by
                intro c2 h
                refine ⟨flatten_headS hrest c2 h, ?_⟩
                intro he2
                subst he2
                rcases flatten_headI hrest h with ⟨u, rest2, rfl, hhead⟩
                have := sh_single u (hrest u (by simp)) hhead
                exact hsh (by rw [this]; rfl)
              refine ⟨[['t']], rest, ?_, rfl, ?_⟩
              · have he : ((['t'] : Tok) :: rest).flatten
                    = 't' :: rest.flatten := by simp
                rw [he, unitPart_Ct hf]
                simp
              · rw [countV_cons_not (by decide)]
          · by_cases htd : t1 = ['d']
            · subst htd
              by_cases hzh : rest.head? = some ['ʒ']
              · obtain ⟨rest2, rfl⟩ : ∃ rest2, rest = ['ʒ'] :: rest2 := by
                  cases rest with
                  | nil => simp at hzh
                  | cons x rest2 =>
                    simp at hzh
                    exact ⟨rest2, by rw [hzh]⟩
                exact absurd (hasAdj_cons₂.mpr (Or.inl ⟨rfl, rfl⟩)) h2
              · have hf : ∀ c2, rest.flatten.head? = some c2 →
                    c2 ∈ symFirst ∧ c2 ≠ 'ʒ' := by
                  intro c2 h
                  refine ⟨flatten_headS hrest c2 h, ?_⟩
                  intro he2
                  subst he2
                  rcases flatten_headI hrest h with ⟨u, rest2, rfl, hhead⟩
                  have := zh_single u (hrest u (by simp)) hhead
                  exact hzh (by rw [this]; rfl)
                refine ⟨[['d']], rest, ?_, rfl, ?_⟩
                · have he : ((['d'] : Tok) :: rest).flatten
                      = 'd' :: rest.flatten := by simp
                  rw [he, unitPart_Cd hf]
                  simp
                · rw [countV_cons_not (by decide)]
            · have hngp : ¬ (['n', 'g'] : List Char) <+: t1 ++ rest.flatten := by
                by_cases hn : t1 = ['n']
                · subst hn
                  apply ng_not_pref_2
                  intro c2 h he2
                  subst he2
                  rcases flatten_headI hrest h with ⟨u, rest2, rfl, hhead⟩
                  have := g_single u (hrest u (by simp)) hhead
                  exact hng ⟨rfl, by rw [this]; rfl⟩
                · obtain ⟨c, t1', rfl⟩ : ∃ c t1', t1 = c :: t1' := by
                    have := Symbols_ne_nil t1 ht1
                    cases t1 with
                    | nil => exact absurd rfl this
                    | cons a b => exact ⟨a, b, rfl⟩
                  apply ng_not_pref_head
                  intro he2
                  subst he2
                  exact hn (n_single _ ht1 rfl)
              refine ⟨[t1], rest, ?_, rfl, ?_⟩
              · have he : (t1 :: rest).flatten = t1 ++ rest.flatten := by simp
                rw [he, unitPart_C hc1 hl (by
                    rintro (h | h)
                    · exact htt h
                    · exact htd h) hngp (flatten_headS hrest)]
                simp
              · rw [countV_cons_not (CSyms_not_vowel t1 hc1)]

theorem onsetRun_exact {ss : List Tok} (hs : ∀ t ∈ ss, t ∈ Symbols)
    (h1 : ¬ hasAdj ['t'] ['ʃ'] ss) (h2 : ¬ hasAdj ['d'] ['ʒ'] ss)
    (ha1 : ¬ hasAdj ['ʁ'] ['t', 'ʃ'] ss) (ha2 : ¬ hasAdj ['l'] ['t', 'ʃ'] ss)
    (ha3 : ¬ hasAdj ['ʁ'] ['d', 'ʒ'] ss) (ha4 : ¬ hasAdj ['l'] ['d', 'ʒ'] ss)
    (hv : 0 < countV ss) :
    ∃ us rest, onsetRun ss.flatten = (us.flatten, rest.flatten) ∧
      ss = us ++ rest ∧ countV rest = countV ss := by
  obtain ⟨gs, rest1, hgp, hgs, hgc⟩ := glide_exact hs
  have hr1s : ∀ t ∈ rest1, t ∈ Symbols := fun t ht =>
    hs t (by rw [hgs]; exact List.mem_append_right _ ht)
  have adj : ∀ a b : Tok, ¬ hasAdj a b ss → ¬ hasAdj a b rest1 :=
    fun a b hna hc => hna (by rw [hgs]; exact hasAdj_mono_right hc)
  obtain ⟨us2, rest2, hup, hus, huc⟩ := unit_exact hr1s
    (adj _ _ h1) (adj _ _ h2) (adj _ _ ha1) (adj _ _ ha2)
    (adj _ _ ha3) (adj _ _ ha4)
  have hr2s : ∀ t ∈ rest2, t ∈ Symbols := fun t ht =>
    hr1s t (by rw [hus]; exact List.mem_append_right _ ht)
  have hcc : countV rest2 = countV ss := by rw [huc, hgc]
  have hv2 : 0 < countV rest2 := by rw [hcc]; exact hv
  have hsp := sPart_exact hr2s hv2
  refine ⟨gs ++ us2, rest2, ?_, by rw [hgs, hus, List.append_assoc], hcc⟩
  unfold onsetRun
  simp only [hgp, hup, hsp]
  simp [List.flatten_append]

/-!
## Word-initial clusters accepted by the onset grammar

In the original reading order, the pattern allows before the first vowel
an optional extrasyllabic `s`, then an optional cluster unit (a single
consonant-class symbol, the literal `gn`, or a liquid-friendly consonant
followed by a liquid), then an optional glide.  `leadShapes` enumerates
these symbol sequences.
-/

def sOpts : List (List Tok) := [[], [['s']]]

def unitOpts : List (List Tok) :=
  [[]] ++ (LIQUIDS ++ GLIDES ++ CONSONANTS).map (fun t => [t])
    ++ [[['g'], ['n']]]
    ++ (LIQUID_FRIENDLY.map (fun lf => LIQUIDS.map (fun l => [lf, l]))).flatten

def glideOpts : List (List Tok) := [[]] ++ GLIDES.map (fun g => [g])

def leadShapes : List (List Tok) :=
  (sOpts.map (fun sp =>
    (unitOpts.map (fun up =>
      glideOpts.map (fun gp => sp ++ up ++ gp))).flatten)).flatten

set_option maxRecDepth 4000 in
/-- The mirrored trailing consonant run of a word whose initial cluster
fits the onset grammar is consumed in full by the onset matcher. -/
theorem lead_consumed : ∀ ld ∈ leadShapes,
    onsetRun ld.reverse.flatten = (ld.reverse.flatten, []) := by decide

theorem hasAdj_cons_of {a b x : Tok} {l : List Tok} (h : hasAdj a b l) :
    hasAdj a b (x :: l) := by
  have := hasAdj_mono_right (x := [x]) h
  simpa using this

theorem scan_exact :
    ∀ n (s : List Char) (ss ld : List Tok),
      s.length = n → s = ss.flatten →
      (∀ t ∈ ss, t ∈ Symbols) →
      ¬ hasAdj ['t'] ['ʃ'] ss → ¬ hasAdj ['d'] ['ʒ'] ss →
      ¬ hasAdj ['ʁ'] ['t', 'ʃ'] ss → ¬ hasAdj ['l'] ['t', 'ʃ'] ss →
      ¬ hasAdj ['ʁ'] ['d', 'ʒ'] ss → ¬ hasAdj ['l'] ['d', 'ʒ'] ss →
      ld ∈ leadShapes → tailC ss = ld.reverse →
      0 < countV ss →
      ∃ parts : List (List Tok × Tok × List Tok),
        scanMatches s = parts.map
          (fun p => ⟨p.2.2.flatten, p.2.1, p.1.flatten⟩) ∧
        (parts.map (fun p => p.1 ++ p.2.1 :: p.2.2)).flatten = ss ∧
        ∀ p ∈ parts,
          ((∀ t ∈ p.1, t ∈ Symbols) ∧ p.2.1 ∈ Symbols ∧
            (∀ t ∈ p.2.2, t ∈ Symbols)) ∧
          (¬ hasAdj ['t'] ['ʃ'] p.1 ∧ ¬ hasAdj ['d'] ['ʒ'] p.1 ∧
            ¬ hasAdj ['t'] ['ʃ'] p.2.2 ∧ ¬ hasAdj ['d'] ['ʒ'] p.2.2) := by
  intro n
  induction n using Nat.strong_induction_on with
  | _ n ih =>
    intro s ss ld hn hse hs h1 h2 ha1 ha2 ha3 ha4 hldm htl hv
    have hP : ∀ t ∈ ss.takeWhile (fun t => decide (t ∉ VOWELS)), t ∈ CSyms := by
      intro t ht
      have hm1 : t ∈ ss := (List.takeWhile_sublist _).subset ht
      have hm2 := List.mem_takeWhile_imp ht
      simp only [decide_eq_true_eq] at hm2
      rcases Symbols_split t (hs t hm1) with h | h
      · exact h
      · exact absurd h hm2
    have hsplit : ss = ss.takeWhile (fun t => decide (t ∉ VOWELS))
        ++ ss.dropWhile (fun t => decide (t ∉ VOWELS)) :=
      (List.takeWhile_append_dropWhile _ ss).symm
    cases hrest : ss.dropWhile (fun t => decide (t ∉ VOWELS)) with
    | nil =>
      exfalso
      have hcs : ss = ss.takeWhile (fun t => decide (t ∉ VOWELS)) := by
        conv_lhs => rw [hsplit]
        rw [hrest, List.append_nil]
      have : countV ss = 0 := by
        conv_lhs => rw [hcs]
        exact countV_csyms hP
      omega
    | cons v ss2 =>
      have hssfull : ss = ss.takeWhile (fun t => decide (t ∉ VOWELS))
          ++ (v :: ss2) := by
        conv_lhs => rw [hsplit]
        rw [hrest]
      have hvmem : v ∈ ss := by
        rw [hssfull]
        exact List.mem_append_right _ (by simp)
      have hvS : v ∈ Symbols := hs v hvmem
      have hvV : v ∈ VOWELS := by
        have hb := dropWhile_head_false hrest
        simp only [decide_eq_false_iff_not, not_not] at hb
        exact hb
      have hss2 : ∀ t ∈ ss2, t ∈ Symbols := by
        intro t ht
        exact hs t (by rw [hssfull]; exact List.mem_append_right _ (by simp [ht]))
      have hcssS : ∀ t ∈ ss.takeWhile (fun t => decide (t ∉ VOWELS)),
          t ∈ Symbols := fun t ht => CSyms_sub t (hP t ht)
      have hseq : s = (ss.takeWhile (fun t => decide (t ∉ VOWELS))).flatten
          ++ (v ++ ss2.flatten) := by
        rw [hse]
        conv_lhs => rw [hssfull]
        rw [List.flatten_append]
        simp
      have htw := @takeWhile_state []
        (ss.takeWhile (fun t => decide (t ∉ VOWELS))) v ss2.flatten
        (by simp) hP hvV
      simp only [List.nil_append] at htw
      have hvm : matchTok vToks (v ++ ss2.flatten) = some (v, ss2.flatten) :=
        matchV_seg hvV (flatten_headS hss2)
      have hms : matchSyllAt s = some
          (⟨(onsetRun ss2.flatten).1, v,
            (ss.takeWhile (fun t => decide (t ∉ VOWELS))).flatten⟩,
           (onsetRun ss2.flatten).2) := by
        rw [matchSyllAt_eq_g, gMatch_onsetRun]
        rw [hseq, htw.2, htw.1, hvm]
      have hadjcss : ∀ a b : Tok, ¬ hasAdj a b ss →
          ¬ hasAdj a b (ss.takeWhile (fun t => decide (t ∉ VOWELS))) :=
        fun a b hna hc => hna (by rw [hssfull]; exact hasAdj_mono_left hc)
      have hadjss2 : ∀ a b : Tok, ¬ hasAdj a b ss → ¬ hasAdj a b ss2 :=
        fun a b hna hc => hna (by
          rw [hssfull]
          exact hasAdj_mono_right (hasAdj_cons_of hc))
      rcases Nat.eq_zero_or_pos (countV ss2) with hc2 | hc2
      · -- the last syllable: the onset takes the whole mirrored lead cluster
        have hnsv : ∀ t ∈ ss2, t ∉ VOWELS := countV_zero_iff.mp hc2
        have htc : tailC ss = ss2 := by
          conv_lhs => rw [hssfull]
          exact tailC_eq_of_noV hnsv hvV
        have hss2eq : ss2 = ld.reverse := by rw [← htc, htl]
        have honset : onsetRun ss2.flatten = (ss2.flatten, []) := by
          rw [hss2eq]
          exact lead_consumed ld hldm
        rw [honset] at hms
        cases s with
        | nil =>
          rw [matchSyllAt_nil] at hms
          cases hms
        | cons c0 s' =>
          refine ⟨[(ss.takeWhile (fun t => decide (t ∉ VOWELS)), v, ss2)],
            ?_, ?_, ?_⟩
          · rw [scanMatches_cons]
            simp only [hms, scanMatches_nil]
            rfl
          · simp only [List.map_cons, List.map_nil, List.flatten_cons,
              List.flatten_nil, List.append_nil]
            exact hssfull.symm
          · intro p hp
            simp only [List.mem_singleton] at hp
            subst hp
            exact ⟨⟨hcssS, hvS, hss2⟩,
              hadjcss _ _ h1, hadjcss _ _ h2,
              hadjss2 _ _ h1, hadjss2 _ _ h2⟩
      · -- a vowel remains: the onset consumes whole symbols and we recurse
        obtain ⟨us, rest, hor, hus, hoc⟩ := onsetRun_exact hss2
          (hadjss2 _ _ h1) (hadjss2 _ _ h2) (hadjss2 _ _ ha1)
          (hadjss2 _ _ ha2) (hadjss2 _ _ ha3) (hadjss2 _ _ ha4) hc2
        have hrs : ∀ t ∈ rest, t ∈ Symbols := fun t ht =>
          hss2 t (by rw [hus]; exact List.mem_append_right _ ht)
        have husS : ∀ t ∈ us, t ∈ Symbols := fun t ht =>
          hss2 t (by rw [hus]; exact List.mem_append_left _ ht)
        have hadjrest : ∀ a b : Tok, ¬ hasAdj a b ss → ¬ hasAdj a b rest :=
          fun a b hna hc => hadjss2 a b hna (by
            rw [hus]
            exact hasAdj_mono_right hc)
        have hadjus : ∀ a b : Tok, ¬ hasAdj a b ss → ¬ hasAdj a b us :=
          fun a b hna hc => hadjss2 a b hna (by
            rw [hus]
            exact hasAdj_mono_left hc)
        have hvrest : 0 < countV rest := by rw [hoc]; exact hc2
        have htl2 : tailC rest = ld.reverse := by
          rw [← htl]
          have he1 : ss = (ss.takeWhile (fun t => decide (t ∉ VOWELS))
              ++ [v]) ++ (us ++ rest) := by
            conv_lhs => rw [hssfull, hus]
            simp
          rw [he1, tailC_append_pos (by rw [countV_append]; omega),
            tailC_append_pos hvrest]
        rw [hor] at hms
        simp only at hms
        cases s with
        | nil =>
          rw [matchSyllAt_nil] at hms
          cases hms
        | cons c0 s' =>
          have hlt : rest.flatten.length < (c0 :: s').length :=
            matchSyllAt_lt hms
          obtain ⟨parts3, hm3, hcat3, hok3⟩ := ih rest.flatten.length
            (by subst hn; exact hlt) rest.flatten rest ld rfl rfl hrs
            (hadjrest _ _ h1) (hadjrest _ _ h2) (hadjrest _ _ ha1)
            (hadjrest _ _ ha2) (hadjrest _ _ ha3) (hadjrest _ _ ha4)
            hldm htl2 hvrest
          refine ⟨(ss.takeWhile (fun t => decide (t ∉ VOWELS)), v, us)
            :: parts3, ?_, ?_, ?_⟩
          · rw [scanMatches_cons]
            simp only [hms, hm3]
            rfl
          · simp only [List.map_cons, List.flatten_cons, hcat3]
            conv_rhs => rw [hssfull, hus]
            simp
          · intro p hp
            rcases List.mem_cons.mp hp with rfl | hp
            · exact ⟨⟨hcssS, hvS, husS⟩,
                hadjcss _ _ h1, hadjcss _ _ h2,
                hadjus _ _ h1, hadjus _ _ h2⟩
            · exact hok3 p hp

theorem mirrored_single {v : Tok} (hv : v ∈ Symbols) : mirrored v = v := by
  have h := mirrored_flatten
    (show ∀ t ∈ [v], t ∈ Symbols by simpa using hv)
    hasAdj_one hasAdj_one
  simpa using h

theorem catSyls_reverse_mk : ∀ ps : List (List Tok × Tok × List Tok),
    catSyls ((ps.map (fun p =>
        Syllable.mk p.2.2.reverse.flatten p.2.1 p.1.reverse.flatten)).reverse)
      = ((ps.map (fun p => p.1 ++ p.2.1 :: p.2.2)).flatten).reverse.flatten := by
  intro ps
  induction ps with
  | nil => rfl
  | cons p ps ih =>
    simp only [List.map_cons, List.reverse_cons, List.flatten_cons]
    unfold catSyls
    rw [List.map_append, List.flatten_append]
    unfold catSyls at ih
    rw [ih]
    simp [sylStr, List.reverse_append, List.flatten_append, List.append_assoc]

/-- C1 (amended): the round trip holds for every well-formed input that
further avoids the failure patterns of the matcher: the decomposition
writes affricates as single symbols (no `t`+`ʃ` or `d`+`ʒ` pair), no `ʃ`
is immediately followed by `t` and no `ʒ` by `d` (which the mirror's
repair pass would merge), no affricate is immediately followed by a
liquid (which the mirrored cluster rule would split), and the consonant
cluster before the first vowel fits the onset grammar
`s? (C | gn | liquid-friendly·liquid)? glide?`.  Under these conditions
concatenating onset, nucleus and coda of every syllable of
`syllabify word` in order reproduces the word exactly. -/
theorem C1_round_trip_amended (ts : List Tok)
    (hs : ∀ t ∈ ts, t ∈ Symbols)
    (h1 : ¬ hasAdj ['t'] ['ʃ'] ts) (h2 : ¬ hasAdj ['d'] ['ʒ'] ts)
    (h3 : ¬ hasAdj ['ʃ'] ['t'] ts) (h4 : ¬ hasAdj ['ʒ'] ['d'] ts)
    (h5 : ¬ hasAdj ['t', 'ʃ'] ['ʁ'] ts) (h6 : ¬ hasAdj ['t', 'ʃ'] ['l'] ts)
    (h7 : ¬ hasAdj ['d', 'ʒ'] ['ʁ'] ts) (h8 : ¬ hasAdj ['d', 'ʒ'] ['l'] ts)
    (hld : ts.takeWhile (fun t => decide (t ∉ VOWELS)) ∈ leadShapes)
    (hv : 0 < countV ts) :
    catSyls (syllabify ts.flatten) = ts.flatten := by
  have hm : mirrored ts.flatten = ts.reverse.flatten :=
    mirrored_flatten hs h1 h2
  have hrs : ∀ t ∈ ts.reverse, t ∈ Symbols := fun t ht =>
    hs t (List.mem_reverse.mp ht)
  have hr1 : ¬ hasAdj ['t'] ['ʃ'] ts.reverse :=
    fun hc => h3 (hasAdj_reverse.mp hc)
  have hr2 : ¬ hasAdj ['d'] ['ʒ'] ts.reverse :=
    fun hc => h4 (hasAdj_reverse.mp hc)
  have hr3 : ¬ hasAdj ['ʁ'] ['t', 'ʃ'] ts.reverse :=
    fun hc => h5 (hasAdj_reverse.mp hc)
  have hr4 : ¬ hasAdj ['l'] ['t', 'ʃ'] ts.reverse :=
    fun hc => h6 (hasAdj_reverse.mp hc)
  have hr5 : ¬ hasAdj ['ʁ'] ['d', 'ʒ'] ts.reverse :=
    fun hc => h7 (hasAdj_reverse.mp hc)
  have hr6 : ¬ hasAdj ['l'] ['d', 'ʒ'] ts.reverse :=
    fun hc => h8 (hasAdj_reverse.mp hc)
  have htl : tailC ts.reverse
      = (ts.takeWhile (fun t => decide (t ∉ VOWELS))).reverse := by
    unfold tailC
    rw [List.reverse_reverse]
  have hvr : 0 < countV ts.reverse := by
    rw [countV_reverse]
    exact hv
  obtain ⟨parts, hscan, hcat, hok⟩ := scan_exact ts.reverse.flatten.length
    ts.reverse.flatten ts.reverse
    (ts.takeWhile (fun t => decide (t ∉ VOWELS)))
    rfl rfl hrs hr1 hr2 hr3 hr4 hr5 hr6 hld htl hvr
  have hsyl : syllabify ts.flatten = (parts.map (fun p =>
      Syllable.mk (mirrored p.2.2.flatten) (mirrored p.2.1)
        (mirrored p.1.flatten))).reverse := by
    unfold syllabify
    rw [hm, hscan, List.map_map]
    rfl
  have hmap2 : parts.map (fun p =>
      Syllable.mk (mirrored p.2.2.flatten) (mirrored p.2.1)
        (mirrored p.1.flatten))
      = parts.map (fun p =>
        Syllable.mk p.2.2.reverse.flatten p.2.1 p.1.reverse.flatten) := by
    apply List.map_congr_left
    intro p hp
    obtain ⟨⟨hp1, hpv, hp2⟩, hq1, hq2, hq3, hq4⟩ := hok p hp
    rw [mirrored_flatten hp2 hq3 hq4, mirrored_single hpv,
      mirrored_flatten hp1 hq1 hq2]
  rw [hsyl, hmap2, catSyls_reverse_mk, hcat, List.reverse_reverse]

/-- C1, counterexample to the unrestricted claim: the word `psi` is
well-formed (only inventory symbols, with a vowel), yet the word-initial
`p` is silently dropped, so the concatenation of the syllables does not
reproduce the input. -/
theorem C1_round_trip_cx :
    (∀ t ∈ [['p'], ['s'], ['i']], t ∈ Symbols) ∧
    (∃ t ∈ [['p'], ['s'], ['i']], t ∈ VOWELS) ∧
    List.flatten [['p'], ['s'], ['i']] = ['p', 's', 'i'] ∧
    catSyls (syllabify ['p', 's', 'i']) ≠ ['p', 's', 'i'] := by decide

set_option maxRecDepth 4000 in
theorem C1_round_trip_amended_witness :
    catSyls (syllabify (List.flatten [['s'], ['t'], ['ʁ'], ['i']]))
      = List.flatten [['s'], ['t'], ['ʁ'], ['i']] :=
  C1_round_trip_amended [['s'], ['t'], ['ʁ'], ['i']]
    (by decide) (by decide) (by decide) (by decide) (by decide)
    (by decide) (by decide) (by decide) (by decide) (by decide) (by decide)
